import Mathlib

/-!
Verification of `scripts/remove_cache_blocks.py`, a batch source-code
mutation tool that removes redundant cache read/write blocks from a fixed
list of JavaScript provider files via five multiline regular expressions.

The embedding models:
* the Python `re` fragment actually used by the script: literals, the
  character classes `\s` (modelled on its ASCII part), `\d` (ASCII digits),
  `[^)]`, `[^;]`, greedy `*` and `+` over classes, alternation and a
  lookahead, with Python's backtracking preference order (a continuation
  passing matcher, longest-first for greedy quantifiers);
* `pattern.sub('', content)` in `re.MULTILINE` mode: since every pattern of
  the script is anchored with `^`, substitution scans the buffer left to
  right and attempts a match exactly at the start of the text and right
  after each `'\n'`, skipping past each non-overlapping match;
* `str.count`, non overlapping substring counting, used by `main` for the
  removed-block metric;
* `main`, as a pure fold over an abstract file system
  (`String → Option (List Char)`), mirroring the missing-file skip, the
  change detection, the conditional write and the running total.

Text is modelled as `List Char`.  Recursive scanners take an explicit fuel
argument (always instantiated with the length of the input) so that every
definition is structural and computes by kernel reduction.
-/

namespace RemoveCacheBlocks

/-! ### Character classes (ASCII fragment of Python's `\s` and `\d`) -/

def isWs (c : Char) : Bool :=
  c == ' ' || c == '\t' || c == '\n' || c == '\r' || c == '\x0b' || c == '\x0c'

def isDigit (c : Char) : Bool :=
  '0' ≤ c && c ≤ '9'

def nonParen (c : Char) : Bool := c != ')'

def nonSemi (c : Char) : Bool := c != ';'

/-! ### Regular expressions, restricted to the constructs the script uses -/

inductive RE where
  | lit (l : List Char) : RE
  | seq (a b : RE) : RE
  | alt (a b : RE) : RE
  | starC (f : Char → Bool) : RE
  | plusC (f : Char → Bool) : RE
  | look (r : RE) : RE

/-- Greedy choice for a class quantifier: try consuming `n` characters,
then `n-1`, …, finally `0`, returning the first continuation success.
This is Python's backtracking preference order for greedy `*`/`+`. -/
def tryGreedy (k : List Char → Option (List Char)) : Nat → List Char → Option (List Char)
  | 0, s => k s
  | n+1, s =>
    match k (s.drop (n+1)) with
    | some r => some r
    | none => tryGreedy k n s

/-- Backtracking matcher in continuation passing style.  `matchRe r s k`
attempts to match `r` at the start of `s`; on each candidate it calls `k`
with the remaining input, returning the first success in Python's
preference order. -/
def matchRe : RE → List Char → (List Char → Option (List Char)) → Option (List Char)
  | .lit l, s, k => if l.isPrefixOf s then k (s.drop l.length) else none
  | .seq a b, s, k => matchRe a s (fun t => matchRe b t k)
  | .alt a b, s, k =>
    match matchRe a s k with
    | some r => some r
    | none => matchRe b s k
  | .starC f, s, k => tryGreedy k ((s.takeWhile f).length) s
  | .plusC f, s, k =>
    match s with
    | [] => none
    | c :: t => if f c then tryGreedy k ((t.takeWhile f).length) t else none
  | .look r, s, k =>
    match matchRe r s (fun t => some t) with
    | some _ => k s
    | none => none

/-- The leftmost-preferred match of `r` at the start of `s`:
`some rem` leaves exactly `rem` unconsumed. -/
def tryMatch (r : RE) (s : List Char) : Option (List Char) :=
  matchRe r s (fun t => some t)

/-! ### The five patterns of the script -/

def LIT_GCDECL : List Char := "const cached = getCached(".toList
def LIT_CLOSE : List Char := ");".toList
def LIT_IFRET : List Char := "if (cached) return cached;".toList
def LIT_IFOPEN : List Char := "if (cached) \x7b".toList
def LIT_RET : List Char := "return cached;".toList
def LIT_CBRACE : List Char := "\x7d".toList
def LIT_SET : List Char := "setCache(".toList
def LIT_KEYDECL : List Char := "const cacheKey = ".toList
def LIT_LOG : List Char := "log.".toList
def LIT_TRY : List Char := "try".toList

/-- Right-nested sequencing of a pattern list (`lit []` is the unit). -/
def seqs : List RE → RE
  | [] => .lit []
  | [r] => r
  | r :: rs => .seq r (seqs rs)

/-- `^\s*const cached = getCached\([^)]+\);\s*\n\s*if \(cached\) return cached;\s*\n` -/
def pattern1 : RE := seqs
  [.starC isWs, .lit LIT_GCDECL, .plusC nonParen, .lit LIT_CLOSE,
   .starC isWs, .lit ['\n'], .starC isWs, .lit LIT_IFRET, .starC isWs, .lit ['\n']]

/-- `^\s*const cached = getCached\([^)]+\);\s*\n\s*if \(cached\) \{\s*\n\s*return cached;\s*\n\s*\}\s*\n` -/
def pattern2 : RE := seqs
  [.starC isWs, .lit LIT_GCDECL, .plusC nonParen, .lit LIT_CLOSE,
   .starC isWs, .lit ['\n'], .starC isWs, .lit LIT_IFOPEN, .starC isWs, .lit ['\n'],
   .starC isWs, .lit LIT_RET, .starC isWs, .lit ['\n'],
   .starC isWs, .lit LIT_CBRACE, .starC isWs, .lit ['\n']]

/-- `^\s*setCache\([^;]+\);\s*\n` -/
def pattern3 : RE := seqs
  [.starC isWs, .lit LIT_SET, .plusC nonSemi, .lit LIT_CLOSE, .starC isWs, .lit ['\n']]

/-- `^\s*setCache\([^;]+,\s*\d+\);\s*\n` -/
def pattern4 : RE := seqs
  [.starC isWs, .lit LIT_SET, .plusC nonSemi, .lit [','], .starC isWs, .plusC isDigit,
   .lit LIT_CLOSE, .starC isWs, .lit ['\n']]

/-- `^\s*const cacheKey = [^;]+;\s*\n(?=\s*(log\.|try))` -/
def pattern_unused_key : RE := seqs
  [.starC isWs, .lit LIT_KEYDECL, .plusC nonSemi, .lit [';'], .starC isWs, .lit ['\n'],
   .look (.seq (.starC isWs) (.alt (.lit LIT_LOG) (.lit LIT_TRY)))]

/-! ### `re.sub` with empty replacement, `MULTILINE`, `^`-anchored pattern -/

/-- Does the part of `s` consumed before reaching `rem` end with a newline?
Decides whether the position after a match is a line start. -/
def nlEnd (s rem : List Char) : Bool :=
  (s.take (s.length - rem.length)).getLast? == some '\n'

/-- One fuelled scanning pass of `pattern.sub('', ·)`.  `atLS` records
whether the current position is a line start (start of the buffer or just
after `'\n'`); since every pattern of the script begins with `^`, matches
are attempted exactly at line starts. -/
def subAuxF (r : RE) : Nat → List Char → Bool → List Char
  | _, [], _ => []
  | 0, s, _ => s
  | fuel+1, c :: rest, atLS =>
    match (if atLS then tryMatch r (c :: rest) else none) with
    | some rem =>
      if rem.length < rest.length + 1 then
        subAuxF r fuel rem (nlEnd (c :: rest) rem)
      else
        c :: subAuxF r fuel rest (c == '\n')
    | none => c :: subAuxF r fuel rest (c == '\n')

/-- `pattern.sub('', s)` starting in line-start state `b`. -/
def subA (r : RE) (s : List Char) (b : Bool) : List Char :=
  subAuxF r s.length s b

/-- `pattern.sub('', s)`. -/
def subP (r : RE) (s : List Char) : List Char := subA r s true

/-- `remove_cache_blocks` from the script: apply the four block patterns in
order, then the orphaned cache-key pattern. -/
def remove_cache_blocks (content : List Char) : List Char :=
  subP pattern_unused_key (subP pattern4 (subP pattern3 (subP pattern2 (subP pattern1 content))))

/-! ### Lines, substring counting, and the batch runner -/

/-- Split a text into its lines, `str.splitlines`-style: the terminating
newline of a line is not part of the line, and a trailing newline does not
produce an extra empty line. -/
def lines : List Char → List (List Char)
  | [] => []
  | c :: rest =>
    if c = '\n' then [] :: lines rest
    else
      match lines rest with
      | [] => [[c]]
      | l :: ls => (c :: l) :: ls

/-- Fuelled kernel of Python's `str.count`: non-overlapping occurrences of
a nonempty needle `n`, scanning left to right. -/
def pyCountF (n : List Char) : Nat → List Char → Nat
  | _, [] => 0
  | 0, _ => 0
  | fuel+1, c :: t =>
    if n.isPrefixOf (c :: t) then 1 + pyCountF n fuel ((c :: t).drop n.length)
    else pyCountF n fuel t

/-- `hay.count(n)` for a nonempty needle `n`. -/
def pyCount (n hay : List Char) : Nat := pyCountF n hay.length hay

def GETCACHED : List Char := "getCached".toList

def SETCACHE : List Char := "setCache".toList

/-- `original.count('getCached') + original.count('setCache')`, the marker
metric used by `main`. -/
def countMarkers (s : List Char) : Nat := pyCount GETCACHED s + pyCount SETCACHE s

/-- The fixed Target File Set of the script. -/
def PROVIDERS : List String :=
  ["lego.js", "igdb.js", "jvc.js", "tmdb.js", "rebrickable.js",
   "bgg-scraper.js", "googlebooks.js", "openlibrary.js",
   "transformerland.js", "coleka.js", "mangadex.js",
   "luluberlu.js", "jikan.js"]

/-- Per-file outcome of the batch runner. -/
inductive Outcome where
  | missing : Outcome
  | unchanged : Outcome
  | modified (removed : Int) : Outcome
deriving DecidableEq

/-- State threaded through `main`'s loop: the file system, the running
`total_changes`, and the per-file outcomes in processing order. -/
structure RunState where
  fs : String → Option (List Char)
  total : Int
  log : List (String × Outcome)

/-- Overwrite one file of the abstract file system. -/
def writeFS (fs : String → Option (List Char)) (nm : String) (content : List Char) :
    String → Option (List Char) :=
  fun k => if k = nm then some content else fs k

/-- One iteration of `main`'s loop over an abstract file system:
missing files are skipped, unchanged files are not written, changed files
are written back and counted with the marker metric. -/
def processOne (fs : String → Option (List Char)) (nm : String) :
    (String → Option (List Char)) × Int × Outcome :=
  match fs nm with
  | none => (fs, 0, Outcome.missing)
  | some original =>
    let modified := remove_cache_blocks original
    if original = modified then (fs, 0, Outcome.unchanged)
    else
      let removed : Int := (countMarkers original : Int) - (countMarkers modified : Int)
      (writeFS fs nm modified, removed, Outcome.modified removed)

/-- Fold `processOne` over one file name, accumulating the total. -/
def runStep (st : RunState) (nm : String) : RunState :=
  let r := processOne st.fs nm
  { fs := r.1, total := st.total + r.2.1, log := st.log ++ [(nm, r.2.2)] }

/-- Run the batch over a list of file names. -/
def runList (fs0 : String → Option (List Char)) (l : List String) : RunState :=
  l.foldl runStep ⟨fs0, 0, []⟩

/-- `main` of the script over an abstract file system. -/
def main_run (fs0 : String → Option (List Char)) : RunState := runList fs0 PROVIDERS

/-- Sum of the reported per-file removed counts of the modified files. -/
def sumModified (log : List (String × Outcome)) : Int :=
  log.foldl (fun acc e =>
    match e.2 with
    | Outcome.modified r => acc + r
    | _ => acc) 0

/-- The needle `n` occurs as a contiguous substring of `t`. -/
def Occurs (n t : List Char) : Prop := ∃ a b, t = a ++ (n ++ b)

/-- A `getCached` lookup line immediately followed by the single-line
truthy-return guard (the shape recognised by pattern 1), with indentation
`u1`/`u2`, trailing whitespace `w1`/`w2`, lookup argument `k`, and
following text `B`. -/
def lookupGuardBlock (u1 k w1 u2 w2 B : List Char) : List Char :=
  u1 ++ (LIT_GCDECL ++ (k ++ (LIT_CLOSE ++ (w1 ++ '\n' ::
    (u2 ++ (LIT_IFRET ++ (w2 ++ '\n' :: B)))))))

/-! ### Predicates over text and matches -/

/-- `Matches r s rem`: the pattern `r` can match at the start of `s`,
leaving exactly `rem` unconsumed. -/
inductive Matches : RE → List Char → List Char → Prop where
  | lit (l rem : List Char) : Matches (.lit l) (l ++ rem) rem
  | seqM {a b : RE} {s t u : List Char} :
      Matches a s t → Matches b t u → Matches (.seq a b) s u
  | altL {a b : RE} {s t : List Char} : Matches a s t → Matches (.alt a b) s t
  | altR {a b : RE} {s t : List Char} : Matches b s t → Matches (.alt a b) s t
  | starM {f : Char → Bool} (u rem : List Char) :
      (∀ c ∈ u, f c = true) → Matches (.starC f) (u ++ rem) rem
  | plusM {f : Char → Bool} (u rem : List Char) :
      u ≠ [] → (∀ c ∈ u, f c = true) → Matches (.plusC f) (u ++ rem) rem
  | lookM {r : RE} {s t : List Char} : Matches r s t → Matches (.look r) s s


def Ws (u : List Char) : Prop := ∀ c ∈ u, isWs c = true

def NoParen (x : List Char) : Prop := ∀ c ∈ x, nonParen c = true

def NoSemi (x : List Char) : Prop := ∀ c ∈ x, nonSemi c = true

def AllDigit (x : List Char) : Prop := ∀ c ∈ x, isDigit c = true

/-- A pattern whose every match ends by consuming a `'\n'`:
the text is match-part `++ '\n' ::` remainder. -/
def EndsNL (r : RE) : Prop :=
  ∀ s rem : List Char, Matches r s rem → ∃ M, s = M ++ '\n' :: rem

/-- Decomposition of a `pattern3` match: optional whitespace, `setCache(`,
a nonempty semicolon-free body, `);`, optional whitespace, a newline. -/
def P3Core (s rem : List Char) : Prop :=
  ∃ u x w, s = u ++ (LIT_SET ++ (x ++ (LIT_CLOSE ++ (w ++ '\n' :: rem)))) ∧
    Ws u ∧ x ≠ [] ∧ NoSemi x ∧ Ws w

/-- Decomposition of a `pattern4` match: the TTL form
`setCache(x, <digits>);` with a final newline. -/
def P4Core (s rem : List Char) : Prop :=
  ∃ u x v d w, s = u ++ (LIT_SET ++ (x ++ (',' :: (v ++ (d ++ (LIT_CLOSE ++
      (w ++ '\n' :: rem))))))) ∧
    Ws u ∧ x ≠ [] ∧ NoSemi x ∧ Ws v ∧ d ≠ [] ∧ AllDigit d ∧ Ws w

/-- The lookahead `(?=\s*(log\.|try))` holds of the remaining text. -/
def LookAfter (rem : List Char) : Prop :=
  ∃ v y, Ws v ∧ (rem = v ++ (LIT_LOG ++ y) ∨ rem = v ++ (LIT_TRY ++ y))

/-- Decomposition of a `pattern_unused_key` match: a `const cacheKey = …;`
line (with trailing whitespace up to a newline), whose following text
satisfies the lookahead. -/
def KeyCore (s rem : List Char) : Prop :=
  ∃ u x w, s = u ++ (LIT_KEYDECL ++ (x ++ (';' :: (w ++ '\n' :: rem)))) ∧
    Ws u ∧ x ≠ [] ∧ NoSemi x ∧ Ws w ∧ LookAfter rem

/-- Decomposition of a `pattern1` match: the `getCached` lookup line
followed directly by the single-line truthy-return guard. -/
def P1Core (s rem : List Char) : Prop :=
  ∃ u k w1 u2 w2, s = u ++ (LIT_GCDECL ++ (k ++ (LIT_CLOSE ++ (w1 ++ '\n' ::
      (u2 ++ (LIT_IFRET ++ (w2 ++ '\n' :: rem))))))) ∧
    Ws u ∧ k ≠ [] ∧ NoParen k ∧ Ws w1 ∧ Ws u2 ∧ Ws w2

/-- A complete `pattern3` match, ending in its consumed newline. -/
def P3Block (M : List Char) : Prop :=
  ∃ u x w, M = u ++ (LIT_SET ++ (x ++ (LIT_CLOSE ++ (w ++ ['\n'])))) ∧
    Ws u ∧ x ≠ [] ∧ NoSemi x ∧ Ws w

/-- `pattern3` can match somewhere at the very start of `s`. -/
def P3Ex (s : List Char) : Prop := ∃ rem, P3Core s rem

/-- `A` is empty or ends with a newline: a deletion at offset `|A|` is a
deletion at a line start. -/
def LineStartA (A : List Char) : Prop := A = [] ∨ ∃ A', A = A' ++ ['\n']

/-- `Del b s t`: `t` is obtained from `s` by deleting complete `pattern3`
blocks at line-start positions (`b` records whether the current position
is a line start). This is the shape of one `pattern3.sub('', ·)` pass. -/
inductive Del : Bool → List Char → List Char → Prop where
  | nil {b : Bool} : Del b [] []
  | keep {b : Bool} {c : Char} {s t : List Char} :
      Del (c == '\n') s t → Del b (c :: s) (c :: t)
  | del {M s t : List Char} : P3Block M → Del true s t → Del true (M ++ s) t

/-- `pre` ends at a line start (w.r.t. initial line-start state `b`). -/
def LineStartPre (b : Bool) (pre : List Char) : Prop :=
  (pre = [] ∧ b = true) ∨ ∃ p', pre = p' ++ ['\n']

/-- No line-start suffix of `t` begins with a `pattern3` match. -/
def NoP3 (b : Bool) (t : List Char) : Prop :=
  ∀ pre suf : List Char, t = pre ++ suf → LineStartPre b pre → ¬ P3Ex suf

/-! ### Basic list helpers -/

theorem isPrefixOf_iff {l s : List Char} : l.isPrefixOf s = true ↔ ∃ t, s = l ++ t := by
  induction l generalizing s with
  | nil => simp [List.isPrefixOf]
  | cons c l ih =>
    cases s with
    | nil => simp [List.isPrefixOf]
    | cons d t =>
      simp only [List.isPrefixOf, Bool.and_eq_true, beq_iff_eq, ih, List.cons_append,
        List.cons.injEq]
      constructor
      · rintro ⟨rfl, u, rfl⟩; exact ⟨u, rfl, rfl⟩
      · rintro ⟨u, rfl, rfl⟩; exact ⟨rfl, u, rfl⟩

theorem take_all_of_le_takeWhile {f : Char → Bool} {s : List Char} {j : Nat}
    (h : j ≤ (s.takeWhile f).length) : ∀ c ∈ s.take j, f c = true := by
  induction s generalizing j with
  | nil => simp
  | cons c t ih =>
    cases j with
    | zero => simp
    | succ j =>
      by_cases hc : f c = true
      · simp only [List.takeWhile_cons, hc, if_true, List.length_cons,
          Nat.succ_le_succ_iff] at h
        intro d hd
        rcases List.mem_cons.1 (by simpa using hd) with rfl | hd'
        · exact hc
        · exact ih h d hd'
      · simp [List.takeWhile_cons, hc] at h

theorem takeWhile_le_of_all {f : Char → Bool} {u : List Char} (v : List Char)
    (h : ∀ c ∈ u, f c = true) : u.length ≤ ((u ++ v).takeWhile f).length := by
  induction u with
  | nil => simp
  | cons c t ih =>
    have hc : f c = true := h c (List.mem_cons_self _ _)
    simp only [List.cons_append, List.takeWhile_cons, hc, if_true, List.length_cons,
      Nat.succ_le_succ_iff]
    exact ih fun d hd => h d (List.mem_cons_of_mem _ hd)

/-- If `b ++ c = a ++ [z]` with `c` nonempty, then `c` also ends with `z`. -/
theorem ends_of_append_ends {b c a : List Char} {z : Char}
    (hc : c ≠ []) (h : b ++ c = a ++ [z]) : ∃ c', c = c' ++ [z] := by
  have hrev := congrArg List.reverse h
  simp only [List.reverse_append, List.reverse_cons, List.reverse_nil, List.nil_append,
    List.cons_append] at hrev
  cases hc' : c.reverse with
  | nil => exact absurd (by simpa using hc') hc
  | cons z' cr =>
    rw [hc'] at hrev
    simp only [List.cons_append, List.cons.injEq] at hrev
    refine ⟨cr.reverse, ?_⟩
    have : c = (z' :: cr).reverse := by rw [← hc', List.reverse_reverse]
    simp [this, hrev.1]

/-! ### Declarative matching semantics -/

theorem tryGreedy_sound {k : List Char → Option (List Char)} {n : Nat} {s res : List Char}
    (h : tryGreedy k n s = some res) : ∃ j ≤ n, k (s.drop j) = some res := by
  induction n with
  | zero => exact ⟨0, Nat.le_refl 0, by simpa [tryGreedy] using h⟩
  | succ n ih =>
    rw [tryGreedy] at h
    cases hk : k (s.drop (n+1)) with
    | some r =>
      rw [hk] at h
      exact ⟨n+1, Nat.le_refl _, by rw [hk]; exact h⟩
    | none =>
      rw [hk] at h
      obtain ⟨j, hj, hkj⟩ := ih h
      exact ⟨j, Nat.le_succ_of_le hj, hkj⟩

theorem tryGreedy_complete {k : List Char → Option (List Char)} {n j : Nat} {s : List Char}
    (hj : j ≤ n) (h : k (s.drop j) ≠ none) : tryGreedy k n s ≠ none := by
  induction n with
  | zero =>
    have : j = 0 := Nat.le_zero.1 hj
    subst this
    simpa [tryGreedy] using h
  | succ n ih =>
    rw [tryGreedy]
    cases hk : k (s.drop (n+1)) with
    | some r => simp
    | none =>
      rcases Nat.lt_or_ge j (n+1) with hlt | hge
      · exact ih (Nat.lt_succ_iff.1 hlt)
      · have : j = n+1 := Nat.le_antisymm hj hge
        subst this
        exact absurd hk h

theorem matchRe_sound {r : RE} :
    ∀ {s res : List Char} {k : List Char → Option (List Char)},
      matchRe r s k = some res → ∃ t, Matches r s t ∧ k t = some res := by
  induction r with
  | lit l =>
    intro s res k h
    have h' : (if l.isPrefixOf s then k (s.drop l.length) else none) = some res := h
    by_cases hp : l.isPrefixOf s = true
    · rw [if_pos hp] at h'
      obtain ⟨t, rfl⟩ := isPrefixOf_iff.1 hp
      rw [List.drop_left] at h'
      exact ⟨t, Matches.lit l t, h'⟩
    · rw [if_neg hp] at h'; exact absurd h' (by simp)
  | seq a b iha ihb =>
    intro s res k h
    obtain ⟨t, hat, hbt⟩ :=
      iha (show matchRe a s (fun t => matchRe b t k) = some res from h)
    obtain ⟨u, hbu, hku⟩ := ihb hbt
    exact ⟨u, Matches.seqM hat hbu, hku⟩
  | alt a b iha ihb =>
    intro s res k h
    have h' : (match matchRe a s k with
        | some r0 => some r0
        | none => matchRe b s k) = some res := h
    cases ha : matchRe a s k with
    | some r0 =>
      rw [ha] at h'
      have h'' : some r0 = some res := h'
      obtain ⟨t, hat, hkt⟩ := iha ha
      cases h''
      exact ⟨t, Matches.altL hat, hkt⟩
    | none =>
      rw [ha] at h'
      obtain ⟨t, hbt, hkt⟩ := ihb (show matchRe b s k = some res from h')
      exact ⟨t, Matches.altR hbt, hkt⟩
  | starC f =>
    intro s res k h
    have h' : tryGreedy k ((s.takeWhile f).length) s = some res := h
    obtain ⟨j, hj, hkj⟩ := tryGreedy_sound h'
    refine ⟨s.drop j, ?_, hkj⟩
    have hsplit : s = s.take j ++ s.drop j := (List.take_append_drop j s).symm
    have hall : ∀ c ∈ s.take j, f c = true := take_all_of_le_takeWhile hj
    conv_lhs => rw [hsplit]
    exact Matches.starM _ _ hall
  | plusC f =>
    intro s res k h
    cases s with
    | nil => exact absurd (show (none : Option (List Char)) = some res from h) (by simp)
    | cons c t =>
      have h' : (if f c then tryGreedy k ((t.takeWhile f).length) t else none) = some res := h
      by_cases hc : f c = true
      · rw [if_pos hc] at h'
        obtain ⟨j, hj, hkj⟩ := tryGreedy_sound h'
        refine ⟨t.drop j, ?_, hkj⟩
        have hsplit : c :: t = (c :: t.take j) ++ t.drop j := by
          simp [List.take_append_drop]
        have hall : ∀ d ∈ c :: t.take j, f d = true := by
          intro d hd
          rcases List.mem_cons.1 hd with rfl | hd'
          · exact hc
          · exact take_all_of_le_takeWhile hj d hd'
        rw [hsplit]
        exact Matches.plusM _ _ (by simp) hall
      · rw [if_neg hc] at h'; exact absurd h' (by simp)
  | look r0 ih =>
    intro s res k h
    have h' : (match matchRe r0 s (fun t => some t) with
        | some _ => k s
        | none => none) = some res := h
    cases hr : matchRe r0 s (fun t => some t) with
    | some u =>
      rw [hr] at h'
      obtain ⟨t, hrt, _⟩ := ih hr
      exact ⟨s, Matches.lookM hrt, h'⟩
    | none =>
      rw [hr] at h'
      exact absurd (show (none : Option (List Char)) = some res from h') (by simp)

theorem matchRe_complete {r : RE} {s t : List Char} (hm : Matches r s t) :
    ∀ {k : List Char → Option (List Char)}, k t ≠ none → matchRe r s k ≠ none := by
  induction hm with
  | lit l rem =>
    intro k hk
    have hp : l.isPrefixOf (l ++ rem) = true := isPrefixOf_iff.2 ⟨rem, rfl⟩
    show (if (l.isPrefixOf (l ++ rem)) then k ((l ++ rem).drop l.length) else none) ≠ none
    rw [if_pos hp, List.drop_left]
    exact hk
  | seqM ha hb iha ihb =>
    intro k hk
    exact iha (ihb hk)
  | altL ha iha =>
    rename_i a b s0 t0
    intro k hk
    show (match matchRe a s0 k with | some r0 => some r0 | none => matchRe b s0 k) ≠ none
    cases hcase : matchRe a s0 k with
    | some r0 => simp
    | none => exact absurd hcase (iha hk)
  | altR hb ihb =>
    rename_i a b s0 t0
    intro k hk
    show (match matchRe a s0 k with | some r0 => some r0 | none => matchRe b s0 k) ≠ none
    cases hcase : matchRe a s0 k with
    | some r0 => simp
    | none => exact ihb hk
  | starM u rem hall =>
    rename_i f
    intro k hk
    show tryGreedy k (((u ++ rem).takeWhile f).length) (u ++ rem) ≠ none
    refine tryGreedy_complete (j := u.length) (takeWhile_le_of_all rem hall) ?_
    rw [List.drop_left]
    exact hk
  | plusM u rem hne hall =>
    rename_i f
    intro k hk
    cases u with
    | nil => exact absurd rfl hne
    | cons c u' =>
      have hc : f c = true := hall c (List.mem_cons_self _ _)
      show (if f c then tryGreedy k (((u' ++ rem).takeWhile f).length) (u' ++ rem)
          else none) ≠ none
      rw [if_pos hc]
      refine tryGreedy_complete (j := u'.length)
        (takeWhile_le_of_all rem fun d hd => hall d (List.mem_cons_of_mem _ hd)) ?_
      rw [List.drop_left]
      exact hk
  | lookM hr ih =>
    rename_i r0 s0 t0
    intro k hk
    show (match matchRe r0 s0 (fun t => some t) with | some _ => k s0 | none => none) ≠ none
    cases hcase : matchRe r0 s0 (fun t => some t) with
    | some r1 => exact hk
    | none => exact absurd hcase (ih (by simp))

theorem tryMatch_sound {r : RE} {s rem : List Char} (h : tryMatch r s = some rem) :
    Matches r s rem := by
  obtain ⟨t, hm, ht⟩ := matchRe_sound h
  cases ht
  exact hm

theorem tryMatch_complete {r : RE} {s t : List Char} (hm : Matches r s t) :
    tryMatch r s ≠ none :=
  matchRe_complete hm (by simp)

/-! ### Unfolding lemmas for the scanning pass -/

theorem subAuxF_of_le {r : RE} :
    ∀ {fuel : Nat} {s : List Char} {b : Bool}, s.length ≤ fuel →
      subAuxF r fuel s b = subA r s b := by
  intro fuel
  induction fuel using Nat.strong_induction_on with
  | _ fuel ih =>
    intro s b hle
    cases s with
    | nil => cases fuel <;> rfl
    | cons c rest =>
      cases fuel with
      | zero => exact absurd hle (by simp)
      | succ g =>
        have hg : rest.length ≤ g := Nat.succ_le_succ_iff.1 (by simpa using hle)
        have erest : subAuxF r g rest (c == '\n') = subAuxF r rest.length rest (c == '\n') := by
          rw [ih g (Nat.lt_succ_self g) hg, ih rest.length (Nat.lt_succ_of_le hg) (Nat.le_refl _)]
        show subAuxF r (g+1) (c :: rest) b = subAuxF r (rest.length + 1) (c :: rest) b
        rw [subAuxF, subAuxF]
        cases htm : (if b then tryMatch r (c :: rest) else none) with
        | none =>
          show c :: subAuxF r g rest (c == '\n') = c :: subAuxF r rest.length rest (c == '\n')
          rw [erest]
        | some rem =>
          show (if rem.length < rest.length + 1 then subAuxF r g rem (nlEnd (c :: rest) rem)
              else c :: subAuxF r g rest (c == '\n'))
            = (if rem.length < rest.length + 1 then
                subAuxF r rest.length rem (nlEnd (c :: rest) rem)
              else c :: subAuxF r rest.length rest (c == '\n'))
          by_cases hlt : rem.length < rest.length + 1
          · have hremg : rem.length ≤ g := Nat.le_trans (Nat.lt_succ_iff.1 hlt) hg
            have erem : subAuxF r g rem (nlEnd (c :: rest) rem)
                = subAuxF r rest.length rem (nlEnd (c :: rest) rem) := by
              rw [ih g (Nat.lt_succ_self g) hremg,
                ih rest.length (Nat.lt_succ_of_le hg) (Nat.lt_succ_iff.1 hlt)]
            rw [if_pos hlt, if_pos hlt, erem]
          · rw [if_neg hlt, if_neg hlt, erest]

theorem subA_nil {r : RE} {b : Bool} : subA r [] b = [] := rfl

theorem subA_match {r : RE} {c : Char} {rest rem : List Char}
    (h : tryMatch r (c :: rest) = some rem) (hlt : rem.length < rest.length + 1) :
    subA r (c :: rest) true = subA r rem (nlEnd (c :: rest) rem) := by
  show subAuxF r (rest.length + 1) (c :: rest) true = _
  rw [subAuxF, if_pos rfl, h]
  show (if rem.length < rest.length + 1 then subAuxF r rest.length rem (nlEnd (c :: rest) rem)
      else c :: subAuxF r rest.length rest (c == '\n')) = _
  rw [if_pos hlt, subAuxF_of_le (Nat.lt_succ_iff.1 hlt)]

theorem subA_match_long {r : RE} {c : Char} {rest rem : List Char}
    (h : tryMatch r (c :: rest) = some rem) (hlt : ¬ rem.length < rest.length + 1) :
    subA r (c :: rest) true = c :: subA r rest (c == '\n') := by
  show subAuxF r (rest.length + 1) (c :: rest) true = _
  rw [subAuxF, if_pos rfl, h]
  show (if rem.length < rest.length + 1 then subAuxF r rest.length rem (nlEnd (c :: rest) rem)
      else c :: subAuxF r rest.length rest (c == '\n')) = _
  rw [if_neg hlt, subAuxF_of_le (Nat.le_refl _)]

theorem subA_none {r : RE} {c : Char} {rest : List Char} {b : Bool}
    (h : tryMatch r (c :: rest) = none) :
    subA r (c :: rest) b = c :: subA r rest (c == '\n') := by
  show subAuxF r (rest.length + 1) (c :: rest) b = _
  rw [subAuxF]
  have h0 : (if b then tryMatch r (c :: rest) else none) = none := by
    cases b <;> simp [h]
  rw [h0]
  show c :: subAuxF r rest.length rest (c == '\n') = _
  rw [subAuxF_of_le (Nat.le_refl _)]

theorem subA_false {r : RE} {c : Char} {rest : List Char} :
    subA r (c :: rest) false = c :: subA r rest (c == '\n') := by
  show subAuxF r (rest.length + 1) (c :: rest) false = _
  rw [subAuxF]
  show c :: subAuxF r rest.length rest (c == '\n') = _
  rw [subAuxF_of_le (Nat.le_refl _)]

/-! ### Inversion principles for `Matches` -/

theorem matches_lit_iff {l s rem : List Char} : Matches (.lit l) s rem ↔ s = l ++ rem := by
  constructor
  · intro h; cases h; rfl
  · rintro rfl; exact Matches.lit l rem

theorem matches_seq_iff {a b : RE} {s rem : List Char} :
    Matches (.seq a b) s rem ↔ ∃ t, Matches a s t ∧ Matches b t rem := by
  constructor
  · intro h; cases h with | seqM ha hb => exact ⟨_, ha, hb⟩
  · rintro ⟨t, ha, hb⟩; exact Matches.seqM ha hb

theorem matches_alt_iff {a b : RE} {s rem : List Char} :
    Matches (.alt a b) s rem ↔ Matches a s rem ∨ Matches b s rem := by
  constructor
  · intro h
    cases h with
    | altL ha => exact Or.inl ha
    | altR hb => exact Or.inr hb
  · rintro (ha | hb)
    · exact Matches.altL ha
    · exact Matches.altR hb

theorem matches_star_iff {f : Char → Bool} {s rem : List Char} :
    Matches (.starC f) s rem ↔ ∃ u, s = u ++ rem ∧ ∀ c ∈ u, f c = true := by
  constructor
  · intro h; cases h with | starM u rem hall => exact ⟨u, rfl, hall⟩
  · rintro ⟨u, rfl, hall⟩; exact Matches.starM u rem hall

theorem matches_plus_iff {f : Char → Bool} {s rem : List Char} :
    Matches (.plusC f) s rem ↔ ∃ u, s = u ++ rem ∧ u ≠ [] ∧ ∀ c ∈ u, f c = true := by
  constructor
  · intro h; cases h with | plusM u rem hne hall => exact ⟨u, rfl, hne, hall⟩
  · rintro ⟨u, rfl, hne, hall⟩; exact Matches.plusM u rem hne hall

theorem matches_look_iff {r : RE} {s rem : List Char} :
    Matches (.look r) s rem ↔ rem = s ∧ ∃ t, Matches r s t := by
  constructor
  · intro h; cases h with | lookM hr => exact ⟨rfl, _, hr⟩
  · rintro ⟨rfl, t, hr⟩; exact Matches.lookM hr

/-- Every match consumes a prefix: the remainder is a suffix. -/
theorem matches_consumes {r : RE} {s rem : List Char} (h : Matches r s rem) :
    ∃ u, s = u ++ rem := by
  induction h with
  | lit l rem => exact ⟨l, rfl⟩
  | seqM ha hb iha ihb =>
    obtain ⟨u, rfl⟩ := iha
    obtain ⟨v, rfl⟩ := ihb
    exact ⟨u ++ v, by simp⟩
  | altL ha iha => exact iha
  | altR hb ihb => exact ihb
  | starM u rem hall => exact ⟨u, rfl⟩
  | plusM u rem hne hall => exact ⟨u, rfl⟩
  | lookM hr => exact ⟨[], rfl⟩

/-! ### Whole-line structure of the five patterns -/

theorem endsNL_lit_nl : EndsNL (.lit ['\n']) := by
  intro s rem h
  rw [matches_lit_iff] at h
  exact ⟨[], h⟩

theorem endsNL_seq {a b : RE} (hb : EndsNL b) : EndsNL (.seq a b) := by
  intro s rem h
  rw [matches_seq_iff] at h
  obtain ⟨t, ha, hbm⟩ := h
  obtain ⟨u, rfl⟩ := matches_consumes ha
  obtain ⟨M, rfl⟩ := hb t rem hbm
  exact ⟨u ++ M, by simp⟩

theorem endsNL_nl_look {L : RE} : EndsNL (.seq (.lit ['\n']) (.look L)) := by
  intro s rem h
  rw [matches_seq_iff] at h
  obtain ⟨t, ha, hbm⟩ := h
  rw [matches_lit_iff] at ha
  rw [matches_look_iff] at hbm
  obtain ⟨rfl, _⟩ := hbm
  exact ⟨[], ha⟩

theorem endsNL_pattern1 : EndsNL pattern1 := by
  show EndsNL (.seq _ (.seq _ (.seq _ (.seq _ (.seq _ (.seq _ (.seq _ (.seq _
    (.seq (.starC isWs) (.lit ['\n']))))))))))
  exact endsNL_seq (endsNL_seq (endsNL_seq (endsNL_seq (endsNL_seq (endsNL_seq
    (endsNL_seq (endsNL_seq (endsNL_seq endsNL_lit_nl))))))))

theorem endsNL_pattern2 : EndsNL pattern2 := by
  show EndsNL (.seq _ (.seq _ (.seq _ (.seq _ (.seq _ (.seq _ (.seq _ (.seq _ (.seq _
    (.seq _ (.seq _ (.seq _ (.seq _ (.seq _ (.seq _ (.seq _
    (.seq (.starC isWs) (.lit ['\n']))))))))))))))))))
  exact endsNL_seq (endsNL_seq (endsNL_seq (endsNL_seq (endsNL_seq (endsNL_seq
    (endsNL_seq (endsNL_seq (endsNL_seq (endsNL_seq (endsNL_seq (endsNL_seq
    (endsNL_seq (endsNL_seq (endsNL_seq (endsNL_seq (endsNL_seq endsNL_lit_nl))))))))))))))))

theorem endsNL_pattern3 : EndsNL pattern3 := by
  show EndsNL (.seq _ (.seq _ (.seq _ (.seq _ (.seq (.starC isWs) (.lit ['\n']))))))
  exact endsNL_seq (endsNL_seq (endsNL_seq (endsNL_seq (endsNL_seq endsNL_lit_nl))))

theorem endsNL_pattern4 : EndsNL pattern4 := by
  show EndsNL (.seq _ (.seq _ (.seq _ (.seq _ (.seq _ (.seq _ (.seq _
    (.seq (.starC isWs) (.lit ['\n'])))))))))
  exact endsNL_seq (endsNL_seq (endsNL_seq (endsNL_seq (endsNL_seq (endsNL_seq
    (endsNL_seq (endsNL_seq endsNL_lit_nl)))))))

theorem endsNL_pattern_unused_key : EndsNL pattern_unused_key := by
  show EndsNL (.seq _ (.seq _ (.seq _ (.seq _ (.seq _
    (.seq (.lit ['\n']) (.look _)))))))
  exact endsNL_seq (endsNL_seq (endsNL_seq (endsNL_seq (endsNL_seq endsNL_nl_look))))

/-! ### Exact decompositions for patterns 3 and 4 and the orphaned-key rule -/

theorem matches_pattern3_iff {s rem : List Char} :
    Matches pattern3 s rem ↔ P3Core s rem := by
  constructor
  · intro h
    have h' : Matches (.seq (.starC isWs) (.seq (.lit LIT_SET) (.seq (.plusC nonSemi)
        (.seq (.lit LIT_CLOSE) (.seq (.starC isWs) (.lit ['\n'])))))) s rem := h
    rw [matches_seq_iff] at h'
    obtain ⟨t1, h1, h'⟩ := h'
    rw [matches_star_iff] at h1
    obtain ⟨u, rfl, hu⟩ := h1
    rw [matches_seq_iff] at h'
    obtain ⟨t2, h2, h'⟩ := h'
    rw [matches_lit_iff] at h2
    subst h2
    rw [matches_seq_iff] at h'
    obtain ⟨t3, h3, h'⟩ := h'
    rw [matches_plus_iff] at h3
    obtain ⟨x, rfl, hxne, hx⟩ := h3
    rw [matches_seq_iff] at h'
    obtain ⟨t4, h4, h'⟩ := h'
    rw [matches_lit_iff] at h4
    subst h4
    rw [matches_seq_iff] at h'
    obtain ⟨t5, h5, h'⟩ := h'
    rw [matches_star_iff] at h5
    obtain ⟨w, rfl, hw⟩ := h5
    rw [matches_lit_iff] at h'
    subst h'
    exact ⟨u, x, w, rfl, hu, hxne, hx, hw⟩
  · rintro ⟨u, x, w, rfl, hu, hxne, hx, hw⟩
    show Matches (.seq (.starC isWs) (.seq (.lit LIT_SET) (.seq (.plusC nonSemi)
        (.seq (.lit LIT_CLOSE) (.seq (.starC isWs) (.lit ['\n'])))))) _ rem
    exact Matches.seqM (Matches.starM u _ hu) (Matches.seqM (Matches.lit LIT_SET _)
      (Matches.seqM (Matches.plusM x _ hxne hx) (Matches.seqM (Matches.lit LIT_CLOSE _)
      (Matches.seqM (Matches.starM w _ hw) (Matches.lit ['\n'] rem)))))

theorem matches_pattern4_iff {s rem : List Char} :
    Matches pattern4 s rem ↔ P4Core s rem := by
  constructor
  · intro h
    have h' : Matches (.seq (.starC isWs) (.seq (.lit LIT_SET) (.seq (.plusC nonSemi)
        (.seq (.lit [',']) (.seq (.starC isWs) (.seq (.plusC isDigit)
        (.seq (.lit LIT_CLOSE) (.seq (.starC isWs) (.lit ['\n']))))))))) s rem := h
    rw [matches_seq_iff] at h'
    obtain ⟨t1, h1, h'⟩ := h'
    rw [matches_star_iff] at h1
    obtain ⟨u, rfl, hu⟩ := h1
    rw [matches_seq_iff] at h'
    obtain ⟨t2, h2, h'⟩ := h'
    rw [matches_lit_iff] at h2
    subst h2
    rw [matches_seq_iff] at h'
    obtain ⟨t3, h3, h'⟩ := h'
    rw [matches_plus_iff] at h3
    obtain ⟨x, rfl, hxne, hx⟩ := h3
    rw [matches_seq_iff] at h'
    obtain ⟨t4, h4, h'⟩ := h'
    rw [matches_lit_iff] at h4
    subst h4
    rw [matches_seq_iff] at h'
    obtain ⟨t5, h5, h'⟩ := h'
    rw [matches_star_iff] at h5
    obtain ⟨v, rfl, hv⟩ := h5
    rw [matches_seq_iff] at h'
    obtain ⟨t6, h6, h'⟩ := h'
    rw [matches_plus_iff] at h6
    obtain ⟨d, rfl, hdne, hd⟩ := h6
    rw [matches_seq_iff] at h'
    obtain ⟨t7, h7, h'⟩ := h'
    rw [matches_lit_iff] at h7
    subst h7
    rw [matches_seq_iff] at h'
    obtain ⟨t8, h8, h'⟩ := h'
    rw [matches_star_iff] at h8
    obtain ⟨w, rfl, hw⟩ := h8
    rw [matches_lit_iff] at h'
    subst h'
    exact ⟨u, x, v, d, w, rfl, hu, hxne, hx, hv, hdne, hd, hw⟩
  · rintro ⟨u, x, v, d, w, rfl, hu, hxne, hx, hv, hdne, hd, hw⟩
    show Matches (.seq (.starC isWs) (.seq (.lit LIT_SET) (.seq (.plusC nonSemi)
        (.seq (.lit [',']) (.seq (.starC isWs) (.seq (.plusC isDigit)
        (.seq (.lit LIT_CLOSE) (.seq (.starC isWs) (.lit ['\n']))))))))) _ rem
    exact Matches.seqM (Matches.starM u _ hu) (Matches.seqM (Matches.lit LIT_SET _)
      (Matches.seqM (Matches.plusM x _ hxne hx) (Matches.seqM (Matches.lit [','] _)
      (Matches.seqM (Matches.starM v _ hv) (Matches.seqM (Matches.plusM d _ hdne hd)
      (Matches.seqM (Matches.lit LIT_CLOSE _) (Matches.seqM (Matches.starM w _ hw)
      (Matches.lit ['\n'] rem))))))))

theorem matches_key_iff {s rem : List Char} :
    Matches pattern_unused_key s rem ↔ KeyCore s rem := by
  constructor
  · intro h
    have h' : Matches (.seq (.starC isWs) (.seq (.lit LIT_KEYDECL) (.seq (.plusC nonSemi)
        (.seq (.lit [';']) (.seq (.starC isWs) (.seq (.lit ['\n'])
        (.look (.seq (.starC isWs) (.alt (.lit LIT_LOG) (.lit LIT_TRY)))))))))) s rem := h
    rw [matches_seq_iff] at h'
    obtain ⟨t1, h1, h'⟩ := h'
    rw [matches_star_iff] at h1
    obtain ⟨u, rfl, hu⟩ := h1
    rw [matches_seq_iff] at h'
    obtain ⟨t2, h2, h'⟩ := h'
    rw [matches_lit_iff] at h2
    subst h2
    rw [matches_seq_iff] at h'
    obtain ⟨t3, h3, h'⟩ := h'
    rw [matches_plus_iff] at h3
    obtain ⟨x, rfl, hxne, hx⟩ := h3
    rw [matches_seq_iff] at h'
    obtain ⟨t4, h4, h'⟩ := h'
    rw [matches_lit_iff] at h4
    subst h4
    rw [matches_seq_iff] at h'
    obtain ⟨t5, h5, h'⟩ := h'
    rw [matches_star_iff] at h5
    obtain ⟨w, rfl, hw⟩ := h5
    rw [matches_seq_iff] at h'
    obtain ⟨t6, h6, h'⟩ := h'
    rw [matches_lit_iff] at h6
    subst h6
    rw [matches_look_iff] at h'
    obtain ⟨rfl, t7, hlook⟩ := h'
    rw [matches_seq_iff] at hlook
    obtain ⟨t8, hv, halt⟩ := hlook
    rw [matches_star_iff] at hv
    obtain ⟨v, rfl, hvw⟩ := hv
    rw [matches_alt_iff, matches_lit_iff, matches_lit_iff] at halt
    refine ⟨u, x, w, rfl, hu, hxne, hx, hw, v, t7, hvw, ?_⟩
    rcases halt with h | h
    · exact Or.inl (by rw [h])
    · exact Or.inr (by rw [h])
  · rintro ⟨u, x, w, rfl, hu, hxne, hx, hw, v, y, hvw, hor⟩
    show Matches (.seq (.starC isWs) (.seq (.lit LIT_KEYDECL) (.seq (.plusC nonSemi)
        (.seq (.lit [';']) (.seq (.starC isWs) (.seq (.lit ['\n'])
        (.look (.seq (.starC isWs) (.alt (.lit LIT_LOG) (.lit LIT_TRY)))))))))) _ rem
    refine Matches.seqM (Matches.starM u _ hu) (Matches.seqM (Matches.lit LIT_KEYDECL _)
      (Matches.seqM (Matches.plusM x _ hxne hx) (Matches.seqM (Matches.lit [';'] _)
      (Matches.seqM (Matches.starM w _ hw) (Matches.seqM (Matches.lit ['\n'] _) ?_)))))
    rcases hor with h | h
    · rw [h]
      exact Matches.lookM (Matches.seqM (Matches.starM v _ hvw)
        (Matches.altL (Matches.lit LIT_LOG y)))
    · rw [h]
      exact Matches.lookM (Matches.seqM (Matches.starM v _ hvw)
        (Matches.altR (Matches.lit LIT_TRY y)))

/-! ### Pattern 4 is dead after pattern 3: seam-insertion machinery -/

theorem p3core_block_iff {s rem : List Char} :
    P3Core s rem ↔ ∃ M, s = M ++ rem ∧ P3Block M := by
  constructor
  · rintro ⟨u, x, w, rfl, hu, hxne, hx, hw⟩
    exact ⟨u ++ (LIT_SET ++ (x ++ (LIT_CLOSE ++ (w ++ ['\n'])))),
      by simp [List.append_assoc], u, x, w, rfl, hu, hxne, hx, hw⟩
  · rintro ⟨M, rfl, u, x, w, rfl, hu, hxne, hx, hw⟩
    exact ⟨u, x, w, by simp [List.append_assoc], hu, hxne, hx, hw⟩

theorem ws_of_pre {a b : List Char} (h : Ws (a ++ b)) : Ws a :=
  fun c hc => h c (List.mem_append_left _ hc)

theorem ws_of_suffix {a b : List Char} (h : Ws (a ++ b)) : Ws b :=
  fun c hc => h c (List.mem_append_right _ hc)

theorem noSemi_of_pre {a b : List Char} (h : NoSemi (a ++ b)) : NoSemi a :=
  fun c hc => h c (List.mem_append_left _ hc)

theorem noSemi_append {a b : List Char} (ha : NoSemi a) (hb : NoSemi b) : NoSemi (a ++ b) := by
  intro c hc
  rcases List.mem_append.1 hc with h | h
  · exact ha c h
  · exact hb c h

theorem noSemi_of_ws {u : List Char} (h : Ws u) : NoSemi u := by
  intro c hc
  have h1 := h c hc
  have hne : c ≠ ';' := by
    intro hcs
    subst hcs
    simp [isWs] at h1
  simp [nonSemi, hne]

theorem noSemi_of_digit {d : List Char} (h : AllDigit d) : NoSemi d := by
  intro c hc
  have h1 := h c hc
  have hne : c ≠ ';' := by
    intro hcs
    subst hcs
    simp [isDigit] at h1
  simp [nonSemi, hne]

theorem noSemi_lit_set : NoSemi LIT_SET := by
  show ∀ c ∈ LIT_SET, nonSemi c = true
  decide

theorem nl_not_mem_lit_set : '\n' ∉ LIT_SET := by decide

theorem nl_not_mem_lit_close : '\n' ∉ LIT_CLOSE := by decide

theorem lit_set_ne_nil : LIT_SET ≠ [] := by decide

theorem lit_close_ne_nil : LIT_CLOSE ≠ [] := by decide

/-- An insertion point inside text whose surrounding characters contain no
newline cannot be a line start. -/
theorem no_linestart_inside {A pre c : List Char} (hA : LineStartA A)
    (heq : A = pre ++ c) (hne : c ≠ []) (hnl : '\n' ∉ c) : False := by
  rcases hA with rfl | ⟨A', hA'⟩
  · exact hne (List.append_eq_nil.1 heq.symm).2
  · obtain ⟨c', rfl⟩ := ends_of_append_ends hne (heq ▸ hA')
    exact hnl (by simp)

/-- If `A` is pure whitespace, `A ++ (M ++ B)` begins with a `pattern3`
match for any complete block `M`. -/
theorem p3ex_of_ws_block {A M B : List Char} (hA : Ws A) (hM : P3Block M) :
    P3Ex (A ++ (M ++ B)) := by
  obtain ⟨um, xm, wm, rfl, hum, hxmne, hxm, hwm⟩ := hM
  refine ⟨B, A ++ um, xm, wm, ?_, ?_, hxmne, hxm, hwm⟩
  · simp [List.append_assoc]
  · intro c hc
    rcases List.mem_append.1 hc with h | h
    · exact hA c h
    · exact hum c h

/-- If `A` is whitespace, then `setCache(`, then a semicolon-free body,
then the match of `M` completes a `pattern3` match ending inside `M`. -/
theorem p3ex_x_region {u c2 M B : List Char} (hu : Ws u) (hc2 : NoSemi c2)
    (hM : P3Block M) : P3Ex ((u ++ (LIT_SET ++ c2)) ++ (M ++ B)) := by
  obtain ⟨um, xm, wm, rfl, hum, hxmne, hxm, hwm⟩ := hM
  refine ⟨B, u, c2 ++ (um ++ (LIT_SET ++ xm)), wm, ?_, hu, ?_, ?_, hwm⟩
  · simp [List.append_assoc]
  · simp [lit_set_ne_nil]
  · exact noSemi_append hc2 (noSemi_append (noSemi_of_ws hum)
      (noSemi_append noSemi_lit_set hxm))

/-- A text beginning with `u ++ (LIT_SET ++ X)` is nonempty. -/
theorem set_shape_ne_nil {u X : List Char} (h : ([] : List Char) = u ++ (LIT_SET ++ X)) :
    False := by
  have h2 := (List.append_eq_nil.1 h.symm).2
  exact lit_set_ne_nil (List.append_eq_nil.1 h2).1

/-- Inserting a complete `pattern3` block at a line-start position inside a
text that begins with a `pattern3` match yields a text that still begins
with a `pattern3` match. -/
theorem p3ex_insert {A B M : List Char} (hex : P3Ex (A ++ B)) (hM : P3Block M)
    (hA : LineStartA A) : P3Ex (A ++ (M ++ B)) := by
  obtain ⟨rem, u, x, w, heq, hu, hxne, hx, hw⟩ := hex
  rcases List.append_eq_append_iff.1 heq with ⟨a1, ha1u, _⟩ | ⟨c1, hc1A, hE2⟩
  · -- u = A ++ a1 : the insertion point lies inside the leading whitespace
    exact p3ex_of_ws_block (ws_of_pre (ha1u ▸ hu)) hM
  · -- A = u ++ c1 and LIT_SET ++ … = c1 ++ B
    rcases List.append_eq_append_iff.1 hE2 with ⟨a2, rfl, hE3⟩ | ⟨c2, hsetc, _⟩
    · -- c1 = LIT_SET ++ a2 and x ++ … = a2 ++ B
      rcases List.append_eq_append_iff.1 hE3 with ⟨a3, rfl, hE4⟩ | ⟨c3, hxeq, _⟩
      · -- a2 = x ++ a3 and LIT_CLOSE ++ … = a3 ++ B
        rcases List.append_eq_append_iff.1 hE4 with ⟨a4, rfl, hE5⟩ | ⟨c4, hcloseq, _⟩
        · -- a3 = LIT_CLOSE ++ a4 and w ++ '\n' :: rem = a4 ++ B
          rcases List.append_eq_append_iff.1 hE5 with ⟨a5, rfl, hE6⟩ | ⟨c5, hweq, _⟩
          · -- a4 = w ++ a5 and '\n' :: rem = a5 ++ B
            cases a5 with
            | nil =>
              -- insertion between the trailing whitespace and the newline
              cases w with
              | nil =>
                exfalso
                have hAeq : A = (u ++ (LIT_SET ++ x)) ++ LIT_CLOSE := by
                  rw [hc1A]
                  simp [List.append_assoc]
                exact no_linestart_inside hA hAeq lit_close_ne_nil nl_not_mem_lit_close
              | cons z0 w' =>
                rcases hA with h0 | ⟨A', hA'⟩
                · exact (set_shape_ne_nil (h0.symm.trans hc1A)).elim
                · have h5 : (u ++ (LIT_SET ++ (x ++ LIT_CLOSE))) ++ (z0 :: w')
                      = A' ++ ['\n'] := by
                    rw [← hA', hc1A]
                    simp [List.append_assoc]
                  obtain ⟨w1, hw1⟩ := ends_of_append_ends (by simp) h5
                  refine ⟨M ++ B, u, x, w1, ?_, hu, hxne, hx, ?_⟩
                  · rw [hc1A, hw1]
                    simp [List.append_assoc]
                  · exact ws_of_pre (hw1 ▸ hw)
            | cons z a5' =>
              -- the whole match lies inside A before the insertion point
              rw [List.cons_append] at hE6
              injection hE6 with hz hrem
              subst hz
              refine ⟨a5' ++ (M ++ B), u, x, w, ?_, hu, hxne, hx, hw⟩
              rw [hc1A]
              simp [List.append_assoc]
          · -- w = a4 ++ c5 : insertion inside the trailing whitespace
            cases a4 with
            | nil =>
              exfalso
              have hAeq : A = (u ++ (LIT_SET ++ x)) ++ LIT_CLOSE := by
                rw [hc1A]
                simp [List.append_assoc]
              exact no_linestart_inside hA hAeq lit_close_ne_nil nl_not_mem_lit_close
            | cons z0 a4' =>
              rcases hA with h0 | ⟨A', hA'⟩
              · exact (set_shape_ne_nil (h0.symm.trans hc1A)).elim
              · have h5 : (u ++ (LIT_SET ++ (x ++ LIT_CLOSE))) ++ (z0 :: a4')
                    = A' ++ ['\n'] := by
                  rw [← hA', hc1A]
                  simp [List.append_assoc]
                obtain ⟨a41, ha41⟩ := ends_of_append_ends (by simp) h5
                refine ⟨M ++ B, u, x, a41, ?_, hu, hxne, hx, ?_⟩
                · rw [hc1A, ha41]
                  simp [List.append_assoc]
                · have hwsa4 : Ws (z0 :: a4') := ws_of_pre (hweq ▸ hw)
                  exact ws_of_pre (ha41 ▸ hwsa4)
        · -- LIT_CLOSE = a3 ++ c4 : a3 is a prefix of `);`
          cases a3 with
          | nil =>
            have hAeq : A = u ++ (LIT_SET ++ x) := by rw [hc1A]; simp
            rw [hAeq]
            exact p3ex_x_region hu hx hM
          | cons z0 a3' =>
            exfalso
            have hAeq : A = (u ++ (LIT_SET ++ x)) ++ (z0 :: a3') := by
              rw [hc1A]
              simp [List.append_assoc]
            refine no_linestart_inside hA hAeq (by simp) ?_
            intro hmem
            exact nl_not_mem_lit_close (hcloseq ▸ List.mem_append_left _ hmem)
      · -- x = a2 ++ c3 : insertion inside the semicolon-free body
        have hAeq : A = u ++ (LIT_SET ++ a2) := hc1A
        rw [hAeq]
        exact p3ex_x_region hu (noSemi_of_pre (hxeq ▸ hx)) hM
    · -- LIT_SET = c1 ++ c2 : c1 is a prefix of the literal
      cases c1 with
      | nil =>
        have hAeq : A = u := by rw [hc1A]; simp
        rw [hAeq]
        exact p3ex_of_ws_block hu hM
      | cons z0 c1' =>
        exfalso
        refine no_linestart_inside hA hc1A (by simp) ?_
        intro hmem
        exact nl_not_mem_lit_set (hsetc ▸ List.mem_append_left _ hmem)

theorem p3block_ends_nl {M : List Char} (h : P3Block M) : ∃ M', M = M' ++ ['\n'] := by
  obtain ⟨u, x, w, rfl, _, _, _, _⟩ := h
  exact ⟨u ++ (LIT_SET ++ (x ++ (LIT_CLOSE ++ w))), by simp [List.append_assoc]⟩

theorem p3block_ne_nil {M : List Char} (h : P3Block M) : M ≠ [] := by
  obtain ⟨u, x, w, heq, _, _, _, _⟩ := h
  intro hnil
  exact set_shape_ne_nil (hnil ▸ heq)

theorem tryMatch_pattern3_block {s rem : List Char} (h : tryMatch pattern3 s = some rem) :
    ∃ M, s = M ++ rem ∧ P3Block M :=
  p3core_block_iff.1 (matches_pattern3_iff.1 (tryMatch_sound h))

theorem nlEnd_eq_true {s M rem : List Char} (heq : s = M ++ rem)
    (hend : ∃ M', M = M' ++ ['\n']) : nlEnd s rem = true := by
  obtain ⟨M', rfl⟩ := hend
  subst heq
  show ((((M' ++ ['\n']) ++ rem).take (((M' ++ ['\n']) ++ rem).length - rem.length)).getLast?
    == some '\n') = true
  have h1 : ((M' ++ ['\n']) ++ rem).length - rem.length = (M' ++ ['\n']).length := by
    simp only [List.length_append, List.length_cons, List.length_nil]
    omega
  rw [h1, List.take_left, List.getLast?_concat]
  rfl

theorem p3ex_nil_false : ¬ P3Ex [] := by
  rintro ⟨rem, u, x, w, heq, _⟩
  exact set_shape_ne_nil heq

theorem tryMatch_ne_none_of_p3ex {s : List Char} (h : P3Ex s) :
    tryMatch pattern3 s ≠ none := by
  obtain ⟨rem, hcore⟩ := h
  exact tryMatch_complete (matches_pattern3_iff.2 hcore)

/-- One `pattern3` pass realises a `Del` derivation. -/
theorem delOut_aux : ∀ n : Nat, ∀ s : List Char, s.length ≤ n → ∀ b : Bool,
    Del b s (subA pattern3 s b) := by
  intro n
  induction n using Nat.strong_induction_on with
  | _ n ih =>
    intro s hle b
    cases s with
    | nil =>
      rw [show subA pattern3 [] b = [] from subA_nil]
      exact Del.nil
    | cons c rest =>
      cases n with
      | zero => exact absurd hle (by simp)
      | succ m =>
        have hrestm : rest.length ≤ m := Nat.succ_le_succ_iff.1 (by simpa using hle)
        by_cases hb : b = true
        · subst hb
          cases htm : tryMatch pattern3 (c :: rest) with
          | some rem =>
            obtain ⟨M, heq, hblock⟩ := tryMatch_pattern3_block htm
            have hlen := congrArg List.length heq
            simp only [List.length_cons, List.length_append] at hlen
            have hM1 : 1 ≤ M.length := List.length_pos.2 (p3block_ne_nil hblock)
            have hlt : rem.length < rest.length + 1 := by omega
            rw [subA_match htm hlt, nlEnd_eq_true heq (p3block_ends_nl hblock), heq]
            exact Del.del hblock
              (ih m (Nat.lt_succ_self m) rem (by omega) true)
          | none =>
            rw [subA_none htm]
            exact Del.keep (ih m (Nat.lt_succ_self m) rest hrestm (c == '\n'))
        · have hb' : b = false := by simpa using hb
          subst hb'
          rw [subA_false]
          exact Del.keep (ih m (Nat.lt_succ_self m) rest hrestm (c == '\n'))

theorem delOut (s : List Char) (b : Bool) : Del b s (subA pattern3 s b) :=
  delOut_aux s.length s (Nat.le_refl _) b

/-- Reflection: a `pattern3` match at the head of the shrunken text lifts
back to a `pattern3` match at the head of the original text. -/
theorem reflectGen {b : Bool} {s t : List Char} (hdel : Del b s t) :
    ∀ A : List Char, (b = true → LineStartA A) → P3Ex (A ++ t) → P3Ex (A ++ s) := by
  induction hdel with
  | nil => exact fun A _ h => h
  | keep hd ih =>
    rename_i b0 c0 s0 t0
    intro A hok hex
    have hex' : P3Ex ((A ++ [c0]) ++ t0) := by
      have he : (A ++ [c0]) ++ t0 = A ++ (c0 :: t0) := by simp
      rw [he]
      exact hex
    have hok' : (c0 == '\n') = true → LineStartA (A ++ [c0]) := by
      intro hc
      have hc' : c0 = '\n' := by simpa using hc
      exact Or.inr ⟨A, by rw [hc']⟩
    have hres := ih (A ++ [c0]) hok' hex'
    have he : (A ++ [c0]) ++ s0 = A ++ (c0 :: s0) := by simp
    rw [he] at hres
    exact hres
  | del hblock hd ih =>
    intro A hok hex
    exact p3ex_insert (ih A hok hex) hblock (hok rfl)

/-! ### No `pattern3` match survives a `pattern3` pass -/

theorem noP3_nil (b : Bool) : NoP3 b [] := by
  intro pre suf hsplit _
  have hsuf : suf = [] := (List.append_eq_nil.1 hsplit.symm).2
  rw [hsuf]
  exact p3ex_nil_false

theorem noP3_shift {b : Bool} {c : Char} {rest : List Char} (h : NoP3 b (c :: rest)) :
    NoP3 (c == '\n') rest := by
  intro pre suf hsplit hls
  refine h (c :: pre) suf (by simp [hsplit]) ?_
  rcases hls with ⟨rfl, hc⟩ | ⟨p', rfl⟩
  · have hc' : c = '\n' := by simpa using hc
    exact Or.inr ⟨[], by rw [hc']; rfl⟩
  · exact Or.inr ⟨c :: p', by simp⟩

theorem noP3_out_aux : ∀ n : Nat, ∀ s : List Char, s.length ≤ n → ∀ b : Bool,
    NoP3 b (subA pattern3 s b) := by
  intro n
  induction n using Nat.strong_induction_on with
  | _ n ih =>
    intro s hle b
    cases s with
    | nil => rw [subA_nil]; exact noP3_nil b
    | cons c rest =>
      cases n with
      | zero => exact absurd hle (by simp)
      | succ m =>
        have hrestm : rest.length ≤ m := Nat.succ_le_succ_iff.1 (by simpa using hle)
        have hrest_no : NoP3 (c == '\n') (subA pattern3 rest (c == '\n')) :=
          ih m (Nat.lt_succ_self m) rest hrestm (c == '\n')
        by_cases hb : b = true
        · subst hb
          cases htm : tryMatch pattern3 (c :: rest) with
          | some rem =>
            obtain ⟨M, heq, hblock⟩ := tryMatch_pattern3_block htm
            have hlen := congrArg List.length heq
            simp only [List.length_cons, List.length_append] at hlen
            have hM1 : 1 ≤ M.length := List.length_pos.2 (p3block_ne_nil hblock)
            have hlt : rem.length < rest.length + 1 := by omega
            rw [subA_match htm hlt, nlEnd_eq_true heq (p3block_ends_nl hblock)]
            exact ih m (Nat.lt_succ_self m) rem (by omega) true
          | none =>
            rw [subA_none htm]
            intro pre suf hsplit hls
            rcases hls with ⟨rfl, _⟩ | ⟨p', rfl⟩
            · rw [List.nil_append] at hsplit
              subst hsplit
              intro hex
              have hdel : Del true (c :: rest) (c :: subA pattern3 rest (c == '\n')) :=
                Del.keep (delOut rest (c == '\n'))
              have hup := reflectGen hdel [] (fun _ => Or.inl rfl) (by simpa using hex)
              exact tryMatch_ne_none_of_p3ex (by simpa using hup) htm
            · cases p' with
              | nil =>
                rw [List.nil_append] at hsplit
                rw [List.cons_append] at hsplit
                injection hsplit with h1 h2
                subst h1
                exact hrest_no [] suf h2 (Or.inl ⟨rfl, by simp⟩)
              | cons d p'' =>
                rw [List.cons_append, List.cons_append] at hsplit
                injection hsplit with h1 h2
                subst h1
                exact hrest_no (p'' ++ ['\n']) suf h2 (Or.inr ⟨p'', rfl⟩)
        · have hb' : b = false := by simpa using hb
          subst hb'
          rw [subA_false]
          intro pre suf hsplit hls
          rcases hls with ⟨rfl, hfalse⟩ | ⟨p', rfl⟩
          · exact absurd hfalse (by simp)
          · cases p' with
            | nil =>
              rw [List.nil_append] at hsplit
              rw [List.cons_append] at hsplit
              injection hsplit with h1 h2
              subst h1
              exact hrest_no [] suf h2 (Or.inl ⟨rfl, by simp⟩)
            | cons d p'' =>
              rw [List.cons_append, List.cons_append] at hsplit
              injection hsplit with h1 h2
              subst h1
              exact hrest_no (p'' ++ ['\n']) suf h2 (Or.inr ⟨p'', rfl⟩)

theorem noP3_out (s : List Char) (b : Bool) : NoP3 b (subA pattern3 s b) :=
  noP3_out_aux s.length s (Nat.le_refl _) b

/-- Any `pattern4` match head is also the head of a `pattern3` match. -/
theorem p4core_p3ex {s rem : List Char} (h : P4Core s rem) : P3Ex s := by
  obtain ⟨u, x, v, d, w, heq, hu, hxne, hx, hv, hdne, hd, hw⟩ := h
  refine ⟨rem, u, x ++ (',' :: (v ++ d)), w, ?_, hu, by simp, ?_, hw⟩
  · rw [heq]
    simp [List.append_assoc]
  · intro cc hcc
    rcases List.mem_append.1 hcc with h1 | h1
    · exact hx cc h1
    · rcases List.mem_cons.1 h1 with rfl | h2
      · decide
      · rcases List.mem_append.1 h2 with h3 | h3
        · exact noSemi_of_ws hv cc h3
        · exact noSemi_of_digit hd cc h3

/-- If no line-start suffix of `t` begins with a `pattern3` match, a
`pattern4` pass leaves `t` unchanged. -/
theorem subA4_id_aux : ∀ n : Nat, ∀ t : List Char, t.length ≤ n → ∀ b : Bool,
    NoP3 b t → subA pattern4 t b = t := by
  intro n
  induction n using Nat.strong_induction_on with
  | _ n ih =>
    intro t hle b hno
    cases t with
    | nil => exact subA_nil
    | cons c rest =>
      cases n with
      | zero => exact absurd hle (by simp)
      | succ m =>
        have hrestm : rest.length ≤ m := Nat.succ_le_succ_iff.1 (by simpa using hle)
        have hshift : NoP3 (c == '\n') rest := noP3_shift hno
        by_cases hb : b = true
        · subst hb
          cases htm : tryMatch pattern4 (c :: rest) with
          | some rem =>
            exfalso
            have hex : P3Ex (c :: rest) :=
              p4core_p3ex (matches_pattern4_iff.1 (tryMatch_sound htm))
            exact hno [] (c :: rest) (by simp) (Or.inl ⟨rfl, rfl⟩) hex
          | none =>
            rw [subA_none htm, ih m (Nat.lt_succ_self m) rest hrestm (c == '\n') hshift]
        · have hb' : b = false := by simpa using hb
          subst hb'
          rw [subA_false, ih m (Nat.lt_succ_self m) rest hrestm (c == '\n') hshift]

/-- After a `pattern3` pass, a `pattern4` pass is the identity. -/
theorem subP4_after_subP3 (X : List Char) : subP pattern4 (subP pattern3 X) = subP pattern3 X :=
  subA4_id_aux _ _ (Nat.le_refl _) true (noP3_out X true)

/-- Construction of a `pattern1` match from its decomposition. -/
theorem matches_pattern1_construct {u k w1 u2 w2 rem : List Char}
    (hu : Ws u) (hkne : k ≠ []) (hk : NoParen k) (hw1 : Ws w1) (hu2 : Ws u2) (hw2 : Ws w2) :
    Matches pattern1 (u ++ (LIT_GCDECL ++ (k ++ (LIT_CLOSE ++ (w1 ++ '\n' ::
      (u2 ++ (LIT_IFRET ++ (w2 ++ '\n' :: rem)))))))) rem := by
  show Matches (.seq (.starC isWs) (.seq (.lit LIT_GCDECL) (.seq (.plusC nonParen)
      (.seq (.lit LIT_CLOSE) (.seq (.starC isWs) (.seq (.lit ['\n']) (.seq (.starC isWs)
      (.seq (.lit LIT_IFRET) (.seq (.starC isWs) (.lit ['\n'])))))))))) _ rem
  exact Matches.seqM (Matches.starM u _ hu) (Matches.seqM (Matches.lit LIT_GCDECL _)
    (Matches.seqM (Matches.plusM k _ hkne hk) (Matches.seqM (Matches.lit LIT_CLOSE _)
    (Matches.seqM (Matches.starM w1 _ hw1) (Matches.seqM (Matches.lit ['\n'] _)
    (Matches.seqM (Matches.starM u2 _ hu2) (Matches.seqM (Matches.lit LIT_IFRET _)
    (Matches.seqM (Matches.starM w2 _ hw2) (Matches.lit ['\n'] rem)))))))))

/-! ### Line-granular structure of a scanning pass -/

theorem lines_cons_nl {X : List Char} : lines ('\n' :: X) = [] :: lines X := by
  simp [lines]

theorem lines_cons_of_ne {c : Char} {X l : List Char} {ls : List (List Char)}
    (h : c ≠ '\n') (h2 : lines X = l :: ls) : lines (c :: X) = (c :: l) :: ls := by
  simp [lines, h, h2]

theorem lines_cons_of_nil {c : Char} {X : List Char}
    (h : c ≠ '\n') (h2 : lines X = []) : lines (c :: X) = [[c]] := by
  simp [lines, h, h2]

theorem lines_ne_nil {s : List Char} (h : s ≠ []) : lines s ≠ [] := by
  cases s with
  | nil => exact absurd rfl h
  | cons c rest =>
    by_cases hc : c = '\n'
    · subst hc
      rw [lines_cons_nl]
      simp
    · cases h2 : lines rest with
      | nil => rw [lines_cons_of_nil hc h2]; simp
      | cons l ls => rw [lines_cons_of_ne hc h2]; simp

/-- A chunk ending in a newline contributes whole elements to `lines`. -/
theorem lines_append_of_ends_nl : ∀ M rem : List Char, (∃ M', M = M' ++ ['\n']) →
    lines (M ++ rem) = lines M ++ lines rem := by
  intro M
  induction M with
  | nil => rintro rem ⟨M', hM'⟩; exact absurd hM'.symm (by simp)
  | cons c M₁ ih =>
    rintro rem ⟨M', hM'⟩
    cases M₁ with
    | nil =>
      have hc : c = '\n' := by
        cases M' with
        | nil => simpa using hM'
        | cons d M2 =>
          exfalso
          have := congrArg List.length hM'
          simp at this
      subst hc
      rw [List.cons_append, lines_cons_nl, lines_cons_nl]
      simp [lines]
    | cons d M₂ =>
      have hM₁ : ∃ M2, d :: M₂ = M2 ++ ['\n'] := by
        cases M' with
        | nil => simp at hM'
        | cons e M3 =>
          rw [List.cons_append] at hM'
          injection hM' with h1 h2
          exact ⟨M3, h2⟩
      have ihr := ih rem hM₁
      by_cases hc : c = '\n'
      · subst hc
        rw [List.cons_append, lines_cons_nl, lines_cons_nl, ihr, List.cons_append]
      · have hne : lines (d :: M₂) ≠ [] := lines_ne_nil (by simp)
        cases h2 : lines (d :: M₂) with
        | nil => exact absurd h2 hne
        | cons l ls =>
          have h3 : lines ((d :: M₂) ++ rem) = l :: (ls ++ lines rem) := by
            rw [ihr, h2]
            rfl
          rw [List.cons_append, lines_cons_of_ne hc h3, lines_cons_of_ne hc h2]
          rfl

/-- Splitting at a first newline: `lines (G ++ '\n' :: X) = G :: lines X`
when `G` contains no newline. -/
theorem lines_append_nl : ∀ G X : List Char, '\n' ∉ G →
    lines (G ++ '\n' :: X) = G :: lines X := by
  intro G
  induction G with
  | nil => intro X _; exact lines_cons_nl
  | cons c G₁ ih =>
    intro X hnl
    have hc : c ≠ '\n' := fun h => hnl (h ▸ List.mem_cons_self c G₁)
    have hG₁ : '\n' ∉ G₁ := fun h => hnl (List.mem_cons_of_mem c h)
    have h2 := ih X hG₁
    rw [List.cons_append, lines_cons_of_ne hc h2]

/-- Every text containing a newline splits at its first newline. -/
theorem split_first_nl : ∀ s : List Char, '\n' ∈ s →
    ∃ F t, s = F ++ '\n' :: t ∧ '\n' ∉ F := by
  intro s
  induction s with
  | nil => intro h; exact absurd h (by simp)
  | cons c rest ih =>
    intro h
    by_cases hc : c = '\n'
    · exact ⟨[], rest, by rw [hc]; rfl, by simp⟩
    · have hrest : '\n' ∈ rest := by
        rcases List.mem_cons.1 h with h1 | h1
        · exact absurd h1.symm hc
        · exact h1
      obtain ⟨F, t, rfl, hF⟩ := ih hrest
      refine ⟨c :: F, t, rfl, ?_⟩
      intro hmem
      rcases List.mem_cons.1 hmem with h1 | h1
      · exact hc h1.symm
      · exact hF h1

/-- A pattern that must consume a newline cannot fire in newline-free
text: the pass is the identity there. -/
theorem subA_no_nl {r : RE} (hr : EndsNL r) :
    ∀ s : List Char, '\n' ∉ s → ∀ b : Bool, subA r s b = s := by
  intro s
  induction s with
  | nil => intro _ b; exact subA_nil
  | cons c rest ih =>
    intro hnl b
    have hrest : '\n' ∉ rest := fun h => hnl (List.mem_cons_of_mem c h)
    cases htm : tryMatch r (c :: rest) with
    | some rem =>
      exfalso
      obtain ⟨M, hM⟩ := hr _ _ (tryMatch_sound htm)
      exact hnl (hM ▸ List.mem_append_right M (List.mem_cons_self _ _))
    | none => rw [subA_none htm, ih hrest]

/-- With the scanner not at a line start, the first line is copied
verbatim and scanning restarts after its newline. -/
theorem subA_false_split {r : RE} : ∀ F t : List Char, '\n' ∉ F →
    subA r (F ++ '\n' :: t) false = F ++ '\n' :: subA r t true := by
  intro F
  induction F with
  | nil =>
    intro t _
    rw [List.nil_append, subA_false]
    simp
  | cons c F₁ ih =>
    intro t hnl
    have hc : c ≠ '\n' := fun h => hnl (h ▸ List.mem_cons_self c F₁)
    have hF₁ : '\n' ∉ F₁ := fun h => hnl (List.mem_cons_of_mem c h)
    rw [List.cons_append, subA_false]
    have hcb : (c == '\n') = false := by
      simp [hc]
    rw [hcb, ih t hF₁]
    rfl

/-- One scanning pass of a newline-terminated pattern only deletes whole
lines: the lines of the output form a sublist of the lines of the input. -/
theorem lines_subA {r : RE} (hr : EndsNL r) : ∀ n : Nat, ∀ s : List Char,
    s.length ≤ n → List.Sublist (lines (subA r s true)) (lines s) := by
  intro n
  induction n using Nat.strong_induction_on with
  | _ n ih =>
    intro s hle
    cases s with
    | nil =>
      rw [show subA r [] true = [] from subA_nil]
    | cons c rest =>
      cases n with
      | zero => exact absurd hle (by simp)
      | succ m =>
        have hrestm : rest.length ≤ m := Nat.succ_le_succ_iff.1 (by simpa using hle)
        cases htm : tryMatch r (c :: rest) with
        | some rem =>
          obtain ⟨M, hM⟩ := hr _ _ (tryMatch_sound htm)
          have heq2 : c :: rest = (M ++ ['\n']) ++ rem := by rw [hM]; simp
          have hlen := congrArg List.length heq2
          simp only [List.length_cons, List.length_append] at hlen
          have hlt : rem.length < rest.length + 1 := by omega
          rw [subA_match htm hlt, nlEnd_eq_true heq2 ⟨M, rfl⟩]
          have hsub : List.Sublist (lines (subA r rem true)) (lines rem) :=
            ih m (Nat.lt_succ_self m) rem (by omega)
          have hsplit : lines (c :: rest) = lines (M ++ ['\n']) ++ lines rem := by
            rw [heq2]
            exact lines_append_of_ends_nl _ _ ⟨M, rfl⟩
          rw [hsplit]
          exact hsub.trans (List.sublist_append_right _ _)
        | none =>
          rw [subA_none htm]
          by_cases hc : c = '\n'
          · subst hc
            have hcb : (('\n' : Char) == '\n') = true := by simp
            rw [hcb, lines_cons_nl, lines_cons_nl]
            exact (ih m (Nat.lt_succ_self m) rest hrestm).cons₂ _
          · have hcb : (c == '\n') = false := by simp [hc]
            rw [hcb]
            by_cases hmem : '\n' ∈ rest
            · obtain ⟨F, t, rfl, hF⟩ := split_first_nl rest hmem
              rw [subA_false_split F t hF]
              have hcF : '\n' ∉ c :: F := by
                intro hmem2
                rcases List.mem_cons.1 hmem2 with h1 | h1
                · exact hc h1.symm
                · exact hF h1
              have hlines1 : lines (c :: (F ++ '\n' :: subA r t true))
                  = (c :: F) :: lines (subA r t true) := by
                have := lines_append_nl (c :: F) (subA r t true) hcF
                simpa using this
              have hlines2 : lines (c :: (F ++ '\n' :: t)) = (c :: F) :: lines t := by
                have := lines_append_nl (c :: F) t hcF
                simpa using this
              rw [hlines1, hlines2]
              have htlen : t.length ≤ m := by
                have hlen2 : (F ++ '\n' :: t).length = F.length + (t.length + 1) := by
                  simp
                omega
              exact (ih m (Nat.lt_succ_self m) t htlen).cons₂ _
            · rw [subA_no_nl hr rest hmem false]

/-- One scanning pass of a newline-terminated pattern preserves, at the
very end, any newline-free tail of the input. -/
theorem subA_keeps_tail {r : RE} (hr : EndsNL r) : ∀ n : Nat, ∀ body last : List Char,
    body.length ≤ n → '\n' ∉ last → ∀ b : Bool,
    ∃ body', subA r (body ++ last) b = body' ++ last := by
  intro n
  induction n using Nat.strong_induction_on with
  | _ n ih =>
    intro body last hle hnl b
    cases body with
    | nil =>
      rw [List.nil_append, subA_no_nl hr last hnl b]
      exact ⟨[], rfl⟩
    | cons c brest =>
      cases n with
      | zero => exact absurd hle (by simp)
      | succ m =>
        have hbrm : brest.length ≤ m := Nat.succ_le_succ_iff.1 (by simpa using hle)
        rw [List.cons_append]
        by_cases hb : b = true
        · subst hb
          cases htm : tryMatch r (c :: (brest ++ last)) with
          | some rem =>
            obtain ⟨M, hM⟩ := hr _ _ (tryMatch_sound htm)
            have heq2 : c :: (brest ++ last) = (M ++ ['\n']) ++ rem := by rw [hM]; simp
            have hlen := congrArg List.length heq2
            simp only [List.length_cons, List.length_append] at hlen
            have hlt : rem.length < (brest ++ last).length + 1 := by
              simp only [List.length_append]
              omega
            rw [subA_match htm hlt, nlEnd_eq_true heq2 ⟨M, rfl⟩]
            have heq3 : (c :: brest) ++ last = (M ++ ['\n']) ++ rem := by
              rw [← heq2]
              rfl
            rcases List.append_eq_append_iff.1 heq3 with ⟨a1, hmatch, hlast⟩ | ⟨c1, hbody, hrem⟩
            · cases a1 with
              | nil =>
                have hrl : last = rem := by simpa using hlast
                rw [← hrl, subA_no_nl hr last hnl true]
                exact ⟨[], rfl⟩
              | cons z a1' =>
                exfalso
                obtain ⟨a1m, ha1m⟩ := ends_of_append_ends (c := z :: a1') (by simp) hmatch.symm
                apply hnl
                rw [hlast, ha1m]
                exact List.mem_append_left _ (List.mem_append_right _ (by simp))
            · subst hrem
              have hc1len : c1.length ≤ m := by
                have := congrArg List.length hbody
                simp at this
                omega
              exact ih m (Nat.lt_succ_self m) c1 last hc1len hnl true
          | none =>
            rw [subA_none htm]
            obtain ⟨body', hbo⟩ := ih m (Nat.lt_succ_self m) brest last hbrm hnl (c == '\n')
            exact ⟨c :: body', by rw [hbo]; rfl⟩
        · have hb' : b = false := by simpa using hb
          subst hb'
          rw [subA_false]
          obtain ⟨body', hbo⟩ := ih m (Nat.lt_succ_self m) brest last hbrm hnl (c == '\n')
          exact ⟨c :: body', by rw [hbo]; rfl⟩

theorem subP_keeps_tail {r : RE} (hr : EndsNL r) (body last : List Char)
    (h : '\n' ∉ last) : ∃ body', subP r (body ++ last) = body' ++ last :=
  subA_keeps_tail hr body.length body last (Nat.le_refl _) h true

theorem lines_subP {r : RE} (hr : EndsNL r) (s : List Char) :
    List.Sublist (lines (subP r s)) (lines s) :=
  lines_subA hr s.length s (Nat.le_refl _)

/-! ### Claim theorems: the Pattern Engine -/

/-- Claim C1, counterexample: the Pattern Engine is not idempotent. On
`"const cached = getCached(k);\nsetCache(k, v);\nif (cached) return
cached;\n"` the first run removes only the `setCache` line (patterns 1 and
2 have already been tried before pattern 3 exposes the adjacency), so the
second run removes the now-adjacent `getCached`/guard pair: re-running the
engine on its own output produces a further change. -/
theorem engine_second_pass_changes_output :
    remove_cache_blocks (remove_cache_blocks
      "const cached = getCached(k);\nsetCache(k, v);\nif (cached) return cached;\n".toList)
    ≠ remove_cache_blocks
      "const cached = getCached(k);\nsetCache(k, v);\nif (cached) return cached;\n".toList := by
  decide

/-- Claim C1, amended: the Pattern Engine is not idempotent — it is not
the case that `remove_cache_blocks (remove_cache_blocks T) =
remove_cache_blocks T` for every text `T`; removing a `setCache` line can
make a `getCached` declaration adjacent to its guard, which only a second
run removes. -/
theorem engine_not_idempotent :
    ¬ ∀ T : List Char,
      remove_cache_blocks (remove_cache_blocks T) = remove_cache_blocks T := by
  intro h
  have h0 := h
    "const cached = getCached(k);\nsetCache(k, v);\nif (cached) return cached;\n".toList
  exact absurd h0 (by decide)

/-- Claim C2: rule 4 (the three-argument `setCache`-with-TTL pattern) is
dead code: for every input text, applying patterns 1, 2 and 3 and then
pattern 4 yields exactly the same result as applying patterns 1, 2 and 3
alone — after the pattern-3 pass no line start of the buffer begins a
pattern-4 match, because every pattern-4 match is also a pattern-3 match. -/
theorem pattern4_is_dead_code (T : List Char) :
    subP pattern4 (subP pattern3 (subP pattern2 (subP pattern1 T)))
      = subP pattern3 (subP pattern2 (subP pattern1 T)) :=
  subP4_after_subP3 (subP pattern2 (subP pattern1 T))

/-- Claim C3, counterexample: the orphaned-key rule does not require the
recognised `log.`/`try` continuation to sit on the very next line. In
`"const cacheKey = a;\n\nlog.x(1);\n"` the line immediately following the
declaration is empty — it begins with neither a log call nor a
block-opening keyword — yet the rule still removes the declaration
(together with the blank line), because the lookahead's `\s*` crosses the
line break. -/
theorem key_rule_fires_past_blank_line :
    subP pattern_unused_key "const cacheKey = a;\n\nlog.x(1);\n".toList
      = "log.x(1);\n".toList
    ∧ lines "const cacheKey = a;\n\nlog.x(1);\n".toList
      = ["const cacheKey = a;".toList, [], "log.x(1);".toList] := by
  exact ⟨by decide, by decide⟩

/-- Claim C3, amended: the orphaned-key rule matches (and hence removes) a
`const cacheKey = …;` declaration at a line start iff the text after the
declaration's terminating newline consists of optional whitespace —
possibly spanning blank lines — followed by `log.` or `try`; the
continuation need not be on the immediately following line, and a
declaration whose following text has any other shape is not matched. -/
theorem key_rule_match_characterisation (s : List Char) :
    tryMatch pattern_unused_key s ≠ none ↔ ∃ rem, KeyCore s rem := by
  constructor
  · intro h
    cases htm : tryMatch pattern_unused_key s with
    | none => exact absurd htm h
    | some rem => exact ⟨rem, matches_key_iff.1 (tryMatch_sound htm)⟩
  · rintro ⟨rem, hcore⟩
    exact tryMatch_complete (matches_key_iff.2 hcore)

/-- Claim C5: the Pattern Engine only ever deletes whole lines including
their trailing line break, never edits within a line: for every input
text, the sequence of lines of the output is a subsequence of the sequence
of lines of the input. -/
theorem engine_output_lines_sublist (T : List Char) :
    List.Sublist (lines (remove_cache_blocks T)) (lines T) := by
  refine ((((lines_subP endsNL_pattern_unused_key _).trans
    (lines_subP endsNL_pattern4 _)).trans
    (lines_subP endsNL_pattern3 _)).trans
    (lines_subP endsNL_pattern2 _)).trans
    (lines_subP endsNL_pattern1 _)

/-- Claim C10: every rule's pattern requires a terminating line break, so
a final line that does not end with a newline is never removed: the
engine's output still ends with that exact line. -/
theorem trailing_line_without_newline_preserved (body last : List Char)
    (h : '\n' ∉ last) :
    ∃ body', remove_cache_blocks (body ++ last) = body' ++ last := by
  obtain ⟨b1, h1⟩ := subP_keeps_tail endsNL_pattern1 body last h
  obtain ⟨b2, h2⟩ := subP_keeps_tail endsNL_pattern2 b1 last h
  obtain ⟨b3, h3⟩ := subP_keeps_tail endsNL_pattern3 b2 last h
  obtain ⟨b4, h4⟩ := subP_keeps_tail endsNL_pattern4 b3 last h
  obtain ⟨b5, h5⟩ := subP_keeps_tail endsNL_pattern_unused_key b4 last h
  refine ⟨b5, ?_⟩
  show subP pattern_unused_key (subP pattern4 (subP pattern3 (subP pattern2
    (subP pattern1 (body ++ last))))) = b5 ++ last
  rw [h1, h2, h3, h4, h5]

/-- Claim C10, witness: a two-argument `setCache` call occurring as the
last line of a file with no trailing newline is returned unchanged. -/
theorem trailing_line_without_newline_preserved_witness :
    ('\n' ∉ "setCache(k, v);".toList
      ∧ ∃ body', remove_cache_blocks ([] ++ "setCache(k, v);".toList)
          = body' ++ "setCache(k, v);".toList)
    ∧ remove_cache_blocks "setCache(k, v);".toList = "setCache(k, v);".toList := by
  refine ⟨⟨by decide, trailing_line_without_newline_preserved [] _ (by decide)⟩, by decide⟩

/-! ### Non-overlapping substring counting -/

theorem pyCountF_of_le {n : List Char} (hne : n ≠ []) :
    ∀ {fuel : Nat} {hay : List Char}, hay.length ≤ fuel →
      pyCountF n fuel hay = pyCount n hay := by
  intro fuel
  induction fuel using Nat.strong_induction_on with
  | _ fuel ih =>
    intro hay hle
    cases hay with
    | nil => cases fuel <;> rfl
    | cons c t =>
      cases fuel with
      | zero => exact absurd hle (by simp)
      | succ g =>
        have hg : t.length ≤ g := Nat.succ_le_succ_iff.1 (by simpa using hle)
        have hn1 : 1 ≤ n.length := List.length_pos.2 hne
        have hdl : ((c :: t).drop n.length).length ≤ t.length := by
          simp only [List.length_drop, List.length_cons]
          omega
        show pyCountF n (g+1) (c :: t) = pyCountF n (t.length + 1) (c :: t)
        rw [pyCountF, pyCountF]
        by_cases hp : n.isPrefixOf (c :: t) = true
        · rw [if_pos hp, if_pos hp,
            ih g (Nat.lt_succ_self g) (Nat.le_trans hdl hg),
            ih t.length (Nat.lt_succ_of_le hg) hdl]
        · rw [if_neg hp, if_neg hp, ih g (Nat.lt_succ_self g) hg,
            ih t.length (Nat.lt_succ_of_le hg) (Nat.le_refl _)]

theorem pyCount_nil {n : List Char} : pyCount n [] = 0 := rfl

theorem pyCount_cons_pos {n t : List Char} {c : Char} (hne : n ≠ [])
    (hp : n.isPrefixOf (c :: t) = true) :
    pyCount n (c :: t) = 1 + pyCount n ((c :: t).drop n.length) := by
  have hn1 : 1 ≤ n.length := List.length_pos.2 hne
  have hdl : ((c :: t).drop n.length).length ≤ t.length := by
    simp only [List.length_drop, List.length_cons]
    omega
  show pyCountF n (t.length + 1) (c :: t) = _
  rw [pyCountF, if_pos hp, pyCountF_of_le hne hdl]

theorem pyCount_cons_neg {n t : List Char} {c : Char}
    (hp : ¬ n.isPrefixOf (c :: t) = true) :
    pyCount n (c :: t) = pyCount n t := by
  show pyCountF n (t.length + 1) (c :: t) = _
  rw [pyCountF, if_neg hp]
  rfl

theorem not_isPrefixOf_of_head {n X : List Char} {c : Char} (hne : n ≠ [])
    (hnl : c ∉ n) : ¬ n.isPrefixOf (c :: X) = true := by
  intro hp
  obtain ⟨z, hz⟩ := isPrefixOf_iff.1 hp
  cases n with
  | nil => exact hne rfl
  | cons d n' =>
    rw [List.cons_append] at hz
    injection hz with h1 h2
    exact hnl (by rw [h1]; exact List.mem_cons_self _ _)

/-- If a chunk `M` ends with a newline that no occurrence of `n` can
contain, prepending `M` never loses occurrences of `n`. -/
theorem pyCount_append_ge {n : List Char} (hne : n ≠ []) (hnl : '\n' ∉ n) :
    ∀ m : Nat, ∀ M rem : List Char, M.length ≤ m → (∃ M', M = M' ++ ['\n']) →
      pyCount n rem ≤ pyCount n (M ++ rem) := by
  intro m
  induction m using Nat.strong_induction_on with
  | _ m ih =>
    intro M rem hle hM
    cases M with
    | nil =>
      obtain ⟨M', hM'⟩ := hM
      exact absurd hM'.symm (by simp)
    | cons c M₁ =>
      cases m with
      | zero => exact absurd hle (by simp)
      | succ g =>
        have hg : M₁.length ≤ g := Nat.succ_le_succ_iff.1 (by simpa using hle)
        obtain ⟨M', hM'⟩ := hM
        have hnlM : '\n' ∈ c :: M₁ := by
          rw [hM']
          exact List.mem_append_right _ (by simp)
        by_cases hp : n.isPrefixOf (c :: (M₁ ++ rem)) = true
        · obtain ⟨z, hz⟩ := isPrefixOf_iff.1 hp
          have hz' : (c :: M₁) ++ rem = n ++ z := hz
          rcases List.append_eq_append_iff.1 hz' with ⟨t, hnt, hremt⟩ | ⟨t, hMt, hzt⟩
          · -- n = (c :: M₁) ++ t : M would sit inside n, but M ends in '\n'
            exfalso
            exact hnl (hnt ▸ List.mem_append_left _ hnlM)
          · cases t with
            | nil =>
              exfalso
              have : n = c :: M₁ := by simpa using hMt.symm
              exact hnl (this ▸ hnlM)
            | cons e t' =>
              have htend : ∃ t'', e :: t' = t'' ++ ['\n'] :=
                ends_of_append_ends (by simp) (hMt ▸ hM')
              have hdrop : (c :: (M₁ ++ rem)).drop n.length = (e :: t') ++ rem := by
                have hshape : c :: (M₁ ++ rem) = n ++ ((e :: t') ++ rem) := by
                  show (c :: M₁) ++ rem = n ++ ((e :: t') ++ rem)
                  rw [hMt, List.append_assoc]
                rw [hshape, List.drop_left]
              have hlen := congrArg List.length hMt
              simp only [List.length_cons, List.length_append] at hlen
              have hn1 : 1 ≤ n.length := List.length_pos.2 hne
              have hrec := ih g (Nat.lt_succ_self g) (e :: t') rem (by simp; omega) htend
              have hpos := pyCount_cons_pos hne hp
              rw [hdrop] at hpos
              calc pyCount n rem ≤ pyCount n ((e :: t') ++ rem) := hrec
                _ ≤ 1 + pyCount n ((e :: t') ++ rem) := Nat.le_add_left _ _
                _ = pyCount n (c :: (M₁ ++ rem)) := hpos.symm
        · have hneg := pyCount_cons_neg hp
          cases M₁ with
          | nil =>
            show pyCount n rem ≤ pyCount n (c :: ([] ++ rem))
            rw [hneg]
            simp
          | cons d M₂ =>
            have hM₁end : ∃ M'', d :: M₂ = M'' ++ ['\n'] :=
              ends_of_append_ends (b := [c]) (by simp) hM'
            have hrec := ih g (Nat.lt_succ_self g) (d :: M₂) rem hg hM₁end
            show pyCount n rem ≤ pyCount n (c :: ((d :: M₂) ++ rem))
            rw [hneg]
            exact hrec

/-- If additionally `n` occurs inside `M`, prepending `M` gains at least
one occurrence. -/
theorem pyCount_append_one {n : List Char} (hne : n ≠ []) (hnl : '\n' ∉ n) :
    ∀ m : Nat, ∀ M rem : List Char, M.length ≤ m → (∃ M', M = M' ++ ['\n']) →
      Occurs n M → pyCount n rem + 1 ≤ pyCount n (M ++ rem) := by
  intro m
  induction m using Nat.strong_induction_on with
  | _ m ih =>
    intro M rem hle hM hocc
    cases M with
    | nil =>
      obtain ⟨M', hM'⟩ := hM
      exact absurd hM'.symm (by simp)
    | cons c M₁ =>
      cases m with
      | zero => exact absurd hle (by simp)
      | succ g =>
        have hg : M₁.length ≤ g := Nat.succ_le_succ_iff.1 (by simpa using hle)
        obtain ⟨M', hM'⟩ := hM
        have hnlM : '\n' ∈ c :: M₁ := by
          rw [hM']
          exact List.mem_append_right _ (by simp)
        by_cases hp : n.isPrefixOf (c :: (M₁ ++ rem)) = true
        · obtain ⟨z, hz⟩ := isPrefixOf_iff.1 hp
          have hz' : (c :: M₁) ++ rem = n ++ z := hz
          rcases List.append_eq_append_iff.1 hz' with ⟨t, hnt, hremt⟩ | ⟨t, hMt, hzt⟩
          · exfalso
            exact hnl (hnt ▸ List.mem_append_left _ hnlM)
          · cases t with
            | nil =>
              exfalso
              have : n = c :: M₁ := by simpa using hMt.symm
              exact hnl (this ▸ hnlM)
            | cons e t' =>
              have htend : ∃ t'', e :: t' = t'' ++ ['\n'] :=
                ends_of_append_ends (by simp) (hMt ▸ hM')
              have hdrop : (c :: (M₁ ++ rem)).drop n.length = (e :: t') ++ rem := by
                have hshape : c :: (M₁ ++ rem) = n ++ ((e :: t') ++ rem) := by
                  show (c :: M₁) ++ rem = n ++ ((e :: t') ++ rem)
                  rw [hMt, List.append_assoc]
                rw [hshape, List.drop_left]
              have hlen := congrArg List.length hMt
              simp only [List.length_cons, List.length_append] at hlen
              have hn1 : 1 ≤ n.length := List.length_pos.2 hne
              have hrec := pyCount_append_ge hne hnl g (e :: t') rem (by simp; omega) htend
              have hpos := pyCount_cons_pos hne hp
              rw [hdrop] at hpos
              calc pyCount n rem + 1 ≤ pyCount n ((e :: t') ++ rem) + 1 :=
                    Nat.add_le_add_right hrec 1
                _ = 1 + pyCount n ((e :: t') ++ rem) := Nat.add_comm _ _
                _ = pyCount n (c :: (M₁ ++ rem)) := hpos.symm
        · obtain ⟨a, b, hab⟩ := hocc
          cases a with
          | nil =>
            exfalso
            apply hp
            have : c :: (M₁ ++ rem) = n ++ (b ++ rem) := by
              show (c :: M₁) ++ rem = n ++ (b ++ rem)
              rw [show c :: M₁ = n ++ b from by simpa using hab, List.append_assoc]
            exact isPrefixOf_iff.2 ⟨b ++ rem, this⟩
          | cons e a' =>
            have hM₁ : M₁ = a' ++ (n ++ b) := by
              have htl := congrArg List.tail hab
              simpa using htl
            have hM₁ne : M₁ ≠ [] := by
              rw [hM₁]
              intro h0
              exact hne (List.append_eq_nil.1 ((List.append_eq_nil.1 h0).2)).1
            have hM₁end : ∃ M'', M₁ = M'' ++ ['\n'] := by
              cases hM1c : M₁ with
              | nil => exact absurd hM1c hM₁ne
              | cons d M₂ =>
                rw [hM1c] at hM'
                exact ends_of_append_ends (b := [c]) (by simp) hM'
            have hrec := ih g (Nat.lt_succ_self g) M₁ rem hg hM₁end ⟨a', b, hM₁⟩
            have hneg := pyCount_cons_neg hp
            show pyCount n rem + 1 ≤ pyCount n (c :: (M₁ ++ rem))
            rw [hneg]
            exact hrec

/-- Counting splits at a newline no occurrence can cross. -/
theorem pyCount_split {n : List Char} (hne : n ≠ []) (hnl : '\n' ∉ n) :
    ∀ m : Nat, ∀ G a : List Char, G.length ≤ m → '\n' ∉ G →
      pyCount n (G ++ '\n' :: a) = pyCount n (G ++ ['\n']) + pyCount n a := by
  intro m
  induction m using Nat.strong_induction_on with
  | _ m ih =>
    intro G a hle hG
    cases G with
    | nil =>
      show pyCount n ('\n' :: a) = pyCount n ['\n'] + pyCount n a
      rw [pyCount_cons_neg (not_isPrefixOf_of_head hne hnl),
        pyCount_cons_neg (not_isPrefixOf_of_head hne hnl)]
      show pyCount n a = pyCount n [] + pyCount n a
      rw [pyCount_nil, Nat.zero_add]
    | cons c G' =>
      cases m with
      | zero => exact absurd hle (by simp)
      | succ g =>
        have hg : G'.length ≤ g := Nat.succ_le_succ_iff.1 (by simpa using hle)
        have hG' : '\n' ∉ G' := fun h => hG (List.mem_cons_of_mem _ h)
        have hn1 : 1 ≤ n.length := List.length_pos.2 hne
        show pyCount n (c :: (G' ++ '\n' :: a)) = pyCount n (c :: (G' ++ ['\n'])) + pyCount n a
        by_cases hp : n.isPrefixOf (c :: (G' ++ '\n' :: a)) = true
        · obtain ⟨z, hz⟩ := isPrefixOf_iff.1 hp
          have hz' : (c :: G') ++ ('\n' :: a) = n ++ z := hz
          rcases List.append_eq_append_iff.1 hz' with ⟨t, hnt, hat⟩ | ⟨t, hGt, hzt⟩
          · cases t with
            | nil =>
              have hn : n = c :: G' := by simpa using hnt
              have hshape1 : c :: (G' ++ '\n' :: a) = n ++ ('\n' :: a) := by
                show (c :: G') ++ ('\n' :: a) = n ++ ('\n' :: a)
                rw [hn]
              have hshape2 : c :: (G' ++ ['\n']) = n ++ ['\n'] := by
                show (c :: G') ++ ['\n'] = n ++ ['\n']
                rw [hn]
              have hp2 : n.isPrefixOf (c :: (G' ++ ['\n'])) = true :=
                isPrefixOf_iff.2 ⟨['\n'], hshape2⟩
              have hd1 : (c :: (G' ++ '\n' :: a)).drop n.length = '\n' :: a := by
                rw [hshape1, List.drop_left]
              have hd2 : (c :: (G' ++ ['\n'])).drop n.length = ['\n'] := by
                rw [hshape2, List.drop_left]
              rw [pyCount_cons_pos hne hp, hd1, pyCount_cons_pos hne hp2, hd2,
                pyCount_cons_neg (not_isPrefixOf_of_head hne hnl),
                pyCount_cons_neg (not_isPrefixOf_of_head hne hnl)]
              show 1 + pyCount n a = 1 + pyCount n [] + pyCount n a
              rw [pyCount_nil]
            | cons e t' =>
              exfalso
              have he : '\n' = e := by
                have hat' : '\n' :: a = e :: (t' ++ z) := hat
                injection hat' with h1 h2
              apply hnl
              rw [hnt]
              exact List.mem_append_right _ (by rw [← he]; exact List.mem_cons_self _ _)
          · have hlent := congrArg List.length hGt
            simp only [List.length_cons, List.length_append] at hlent
            have htG : '\n' ∉ t := by
              intro hm
              exact hG (by rw [show c :: G' = n ++ t from hGt]; exact List.mem_append_right n hm)
            have htlen : t.length ≤ g := by omega
            have hshape1 : c :: (G' ++ '\n' :: a) = n ++ (t ++ '\n' :: a) := by
              show (c :: G') ++ ('\n' :: a) = n ++ (t ++ '\n' :: a)
              rw [hGt, List.append_assoc]
            have hshape2 : c :: (G' ++ ['\n']) = n ++ (t ++ ['\n']) := by
              show (c :: G') ++ ['\n'] = n ++ (t ++ ['\n'])
              rw [hGt, List.append_assoc]
            have hp2 : n.isPrefixOf (c :: (G' ++ ['\n'])) = true :=
              isPrefixOf_iff.2 ⟨_, hshape2⟩
            have hd1 : (c :: (G' ++ '\n' :: a)).drop n.length = t ++ '\n' :: a := by
              rw [hshape1, List.drop_left]
            have hd2 : (c :: (G' ++ ['\n'])).drop n.length = t ++ ['\n'] := by
              rw [hshape2, List.drop_left]
            rw [pyCount_cons_pos hne hp, hd1, pyCount_cons_pos hne hp2, hd2,
              ih g (Nat.lt_succ_self g) t a htlen htG]
            omega
        · have hp2 : ¬ n.isPrefixOf (c :: (G' ++ ['\n'])) = true := by
            intro hp2
            obtain ⟨z2, hz2⟩ := isPrefixOf_iff.1 hp2
            have hz2' : (c :: G') ++ ['\n'] = n ++ z2 := hz2
            rcases List.append_eq_append_iff.1 hz2' with ⟨t, hnt, hlt⟩ | ⟨t, hGt, hzt⟩
            · cases t with
              | nil =>
                have hn : n = c :: G' := by simpa using hnt
                apply hp
                refine isPrefixOf_iff.2 ⟨'\n' :: a, ?_⟩
                show (c :: G') ++ ('\n' :: a) = n ++ ('\n' :: a)
                rw [hn]
              | cons e t' =>
                have he : '\n' = e := by
                  have hlt' : ['\n'] = e :: (t' ++ z2) := hlt
                  injection hlt' with h1 h2
                apply hnl
                rw [hnt]
                exact List.mem_append_right _ (by rw [← he]; exact List.mem_cons_self _ _)
            · apply hp
              refine isPrefixOf_iff.2 ⟨t ++ '\n' :: a, ?_⟩
              show (c :: G') ++ ('\n' :: a) = n ++ (t ++ '\n' :: a)
              rw [hGt, List.append_assoc]
          rw [pyCount_cons_neg hp, pyCount_cons_neg hp2]
          exact ih g (Nat.lt_succ_self g) G' a hg hG'

/-- A scanning pass of a newline-terminated pattern never creates new
occurrences of a newline-free needle. -/
theorem pyCount_subA_le {r : RE} (hr : EndsNL r) {n : List Char} (hne : n ≠ [])
    (hnl : '\n' ∉ n) : ∀ m : Nat, ∀ s : List Char, s.length ≤ m → ∀ b : Bool,
      pyCount n (subA r s b) ≤ pyCount n s := by
  intro m
  induction m using Nat.strong_induction_on with
  | _ m ih =>
    intro s hle b
    cases s with
    | nil =>
      rw [show subA r [] b = [] from subA_nil]
    | cons c rest =>
      cases m with
      | zero => exact absurd hle (by simp)
      | succ g =>
        have hg : rest.length ≤ g := Nat.succ_le_succ_iff.1 (by simpa using hle)
        have hcopy : pyCount n (c :: subA r rest (c == '\n')) ≤ pyCount n (c :: rest) := by
          by_cases hc : c = '\n'
          · subst hc
            rw [show (('\n' : Char) == '\n') = true from by simp,
              pyCount_cons_neg (not_isPrefixOf_of_head hne hnl),
              pyCount_cons_neg (not_isPrefixOf_of_head hne hnl)]
            exact ih g (Nat.lt_succ_self g) rest hg true
          · rw [show (c == '\n') = false from by simp [hc]]
            by_cases hmem : '\n' ∈ rest
            · obtain ⟨F, t, rfl, hF⟩ := split_first_nl rest hmem
              rw [subA_false_split F t hF]
              have hcF : '\n' ∉ c :: F := by
                intro hmem2
                rcases List.mem_cons.1 hmem2 with h1 | h1
                · exact hc h1.symm
                · exact hF h1
              have e1 : pyCount n (c :: (F ++ '\n' :: subA r t true))
                  = pyCount n ((c :: F) ++ ['\n']) + pyCount n (subA r t true) :=
                pyCount_split hne hnl (c :: F).length (c :: F) (subA r t true)
                  (Nat.le_refl _) hcF
              have e2 : pyCount n (c :: (F ++ '\n' :: t))
                  = pyCount n ((c :: F) ++ ['\n']) + pyCount n t :=
                pyCount_split hne hnl (c :: F).length (c :: F) t (Nat.le_refl _) hcF
              rw [e1, e2]
              have htlen : t.length ≤ g := by
                have : (F ++ '\n' :: t).length = F.length + (t.length + 1) := by simp
                omega
              exact Nat.add_le_add_left (ih g (Nat.lt_succ_self g) t htlen true) _
            · rw [subA_no_nl hr rest hmem false]
        by_cases hb : b = true
        · subst hb
          cases htm : tryMatch r (c :: rest) with
          | some rem =>
            obtain ⟨M, hM⟩ := hr _ _ (tryMatch_sound htm)
            have heq2 : c :: rest = (M ++ ['\n']) ++ rem := by rw [hM]; simp
            have hlen := congrArg List.length heq2
            simp only [List.length_cons, List.length_append] at hlen
            have hlt : rem.length < rest.length + 1 := by omega
            rw [subA_match htm hlt, nlEnd_eq_true heq2 ⟨M, rfl⟩]
            calc pyCount n (subA r rem true) ≤ pyCount n rem :=
                  ih g (Nat.lt_succ_self g) rem (by omega) true
              _ ≤ pyCount n ((M ++ ['\n']) ++ rem) :=
                  pyCount_append_ge hne hnl (M ++ ['\n']).length (M ++ ['\n']) rem
                    (Nat.le_refl _) ⟨M, rfl⟩
              _ = pyCount n (c :: rest) := by rw [heq2]
          | none =>
            rw [subA_none htm]
            exact hcopy
        · have hb' : b = false := by simpa using hb
          subst hb'
          rw [subA_false]
          exact hcopy

/-! ### Strict count decrease when a block actually fires -/

theorem matches_pattern1_inv {s rem : List Char} (h : Matches pattern1 s rem) :
    P1Core s rem := by
  have h' : Matches (.seq (.starC isWs) (.seq (.lit LIT_GCDECL) (.seq (.plusC nonParen)
      (.seq (.lit LIT_CLOSE) (.seq (.starC isWs) (.seq (.lit ['\n']) (.seq (.starC isWs)
      (.seq (.lit LIT_IFRET) (.seq (.starC isWs) (.lit ['\n'])))))))))) s rem := h
  rw [matches_seq_iff] at h'
  obtain ⟨t1, h1, h'⟩ := h'
  rw [matches_star_iff] at h1
  obtain ⟨u, rfl, hu⟩ := h1
  rw [matches_seq_iff] at h'
  obtain ⟨t2, h2, h'⟩ := h'
  rw [matches_lit_iff] at h2
  subst h2
  rw [matches_seq_iff] at h'
  obtain ⟨t3, h3, h'⟩ := h'
  rw [matches_plus_iff] at h3
  obtain ⟨k, rfl, hkne, hk⟩ := h3
  rw [matches_seq_iff] at h'
  obtain ⟨t4, h4, h'⟩ := h'
  rw [matches_lit_iff] at h4
  subst h4
  rw [matches_seq_iff] at h'
  obtain ⟨t5, h5, h'⟩ := h'
  rw [matches_star_iff] at h5
  obtain ⟨w1, rfl, hw1⟩ := h5
  rw [matches_seq_iff] at h'
  obtain ⟨t6, h6, h'⟩ := h'
  rw [matches_lit_iff] at h6
  subst h6
  rw [matches_seq_iff] at h'
  obtain ⟨t7, h7, h'⟩ := h'
  rw [matches_star_iff] at h7
  obtain ⟨u2, rfl, hu2⟩ := h7
  rw [matches_seq_iff] at h'
  obtain ⟨t8, h8, h'⟩ := h'
  rw [matches_lit_iff] at h8
  subst h8
  rw [matches_seq_iff] at h'
  obtain ⟨t9, h9, h'⟩ := h'
  rw [matches_star_iff] at h9
  obtain ⟨w2, rfl, hw2⟩ := h9
  rw [matches_lit_iff] at h'
  subst h'
  exact ⟨u, k, w1, u2, w2, rfl, hu, hkne, hk, hw1, hu2, hw2⟩

/-- Every `pattern1` match contains an occurrence of `getCached` in its
consumed text. -/
theorem pattern1_match_contains_getCached :
    ∀ s rem : List Char, Matches pattern1 s rem →
      ∃ M, s = M ++ '\n' :: rem ∧ Occurs GETCACHED (M ++ ['\n']) := by
  intro s rem h
  obtain ⟨u, k, w1, u2, w2, heq, hu, hkne, hk, hw1, hu2, hw2⟩ := matches_pattern1_inv h
  have hdecomp : LIT_GCDECL = "const cached = ".toList ++ (GETCACHED ++ "(".toList) := by
    decide
  refine ⟨u ++ (LIT_GCDECL ++ (k ++ (LIT_CLOSE ++ (w1 ++ '\n' ::
      (u2 ++ (LIT_IFRET ++ w2)))))), ?_, ?_⟩
  · rw [heq]
    simp [List.append_assoc]
  · refine ⟨u ++ "const cached = ".toList,
      "(".toList ++ (k ++ (LIT_CLOSE ++ (w1 ++ '\n' :: (u2 ++ (LIT_IFRET ++ w2)))))
        ++ ['\n'], ?_⟩
    rw [hdecomp]
    simp [List.append_assoc]

/-- If some line-start suffix of `s` fires the pattern, and every match of
the pattern contains an occurrence of `n`, then a pass strictly decreases
the count of `n`. -/
theorem pyCount_subA_lt {r : RE} {n : List Char} (hne : n ≠ []) (hnl : '\n' ∉ n)
    (hr : EndsNL r)
    (hoc : ∀ s rem : List Char, Matches r s rem →
      ∃ M, s = M ++ '\n' :: rem ∧ Occurs n (M ++ ['\n'])) :
    ∀ m : Nat, ∀ s : List Char, s.length ≤ m → ∀ b : Bool,
      (∃ pre suf, s = pre ++ suf ∧ LineStartPre b pre ∧ tryMatch r suf ≠ none) →
      pyCount n (subA r s b) < pyCount n s := by
  intro m
  induction m using Nat.strong_induction_on with
  | _ m ih =>
    intro s hle b hfireAll
    obtain ⟨pre, suf, hsplit, hls, hfire⟩ := hfireAll
    cases s with
    | nil =>
      exfalso
      have hsufnil : suf = [] := (List.append_eq_nil.1 hsplit.symm).2
      subst hsufnil
      cases htm : tryMatch r [] with
      | none => exact hfire htm
      | some rem =>
        obtain ⟨M, hM⟩ := hr _ _ (tryMatch_sound htm)
        have := congrArg List.length hM
        simp at this
        omega
    | cons c rest =>
      cases m with
      | zero => exact absurd hle (by simp)
      | succ g =>
        have hg : rest.length ≤ g := Nat.succ_le_succ_iff.1 (by simpa using hle)
        -- the shared copy-step argument, given a fire inside `rest`
        have hcopy : (∃ pre' suf', rest = pre' ++ suf'
              ∧ LineStartPre (c == '\n') pre' ∧ tryMatch r suf' ≠ none) →
            pyCount n (c :: subA r rest (c == '\n')) < pyCount n (c :: rest) := by
          intro hrestfire
          by_cases hc : c = '\n'
          · subst hc
            rw [show (('\n' : Char) == '\n') = true from by simp,
              pyCount_cons_neg (not_isPrefixOf_of_head hne hnl),
              pyCount_cons_neg (not_isPrefixOf_of_head hne hnl)]
            exact ih g (Nat.lt_succ_self g) rest hg true
              (by simpa using hrestfire)
          · rw [show (c == '\n') = false from by simp [hc]]
            obtain ⟨pre', suf', hsp, hls', hfire'⟩ := hrestfire
            have hcb : (c == '\n') = false := by simp [hc]
            rw [hcb] at hls'
            rcases hls' with ⟨rfl, hft⟩ | ⟨q, rfl⟩
            · exact absurd hft (by simp)
            · have hmem : '\n' ∈ rest := by
                rw [hsp]
                exact List.mem_append_left _ (List.mem_append_right _ (by simp))
              obtain ⟨F, t, hFt, hF⟩ := split_first_nl rest hmem
              have hqsplit : q ++ ('\n' :: suf') = F ++ ('\n' :: t) := by
                have h0 : (q ++ ['\n']) ++ suf' = F ++ '\n' :: t := by rw [← hsp, hFt]
                simpa [List.append_assoc] using h0
              have htfire : ∃ p2 s2, t = p2 ++ s2 ∧ LineStartPre true p2
                  ∧ tryMatch r s2 ≠ none := by
                rcases List.append_eq_append_iff.1 hqsplit with ⟨a', hFa, hsa⟩ | ⟨c', hqc, hta⟩
                · cases a' with
                  | nil =>
                    have hst : suf' = t := by simpa using hsa
                    exact ⟨[], t, rfl, Or.inl ⟨rfl, rfl⟩, hst ▸ hfire'⟩
                  | cons e a'' =>
                    exfalso
                    have he : '\n' = e := by
                      have hsa' : '\n' :: suf' = e :: (a'' ++ '\n' :: t) := hsa
                      injection hsa' with h1 h2
                    apply hF
                    rw [hFa]
                    exact List.mem_append_right _ (by rw [← he]; exact List.mem_cons_self _ _)
                · cases c' with
                  | nil =>
                    have hst : t = suf' := by simpa using hta
                    exact ⟨[], t, rfl, Or.inl ⟨rfl, rfl⟩, hst ▸ hfire'⟩
                  | cons e c'' =>
                    have hta' : '\n' :: t = e :: (c'' ++ '\n' :: suf') := hta
                    injection hta' with h1 h2
                    exact ⟨c'' ++ ['\n'], suf', by rw [h2]; simp, Or.inr ⟨c'', rfl⟩, hfire'⟩
              subst hFt
              rw [subA_false_split F t hF]
              have hcF : '\n' ∉ c :: F := by
                intro hmem2
                rcases List.mem_cons.1 hmem2 with h1 | h1
                · exact hc h1.symm
                · exact hF h1
              have e1 : pyCount n (c :: (F ++ '\n' :: subA r t true))
                  = pyCount n ((c :: F) ++ ['\n']) + pyCount n (subA r t true) :=
                pyCount_split hne hnl (c :: F).length (c :: F) (subA r t true)
                  (Nat.le_refl _) hcF
              have e2 : pyCount n (c :: (F ++ '\n' :: t))
                  = pyCount n ((c :: F) ++ ['\n']) + pyCount n t :=
                pyCount_split hne hnl (c :: F).length (c :: F) t (Nat.le_refl _) hcF
              rw [e1, e2]
              have htlen : t.length ≤ g := by
                have : (F ++ '\n' :: t).length = F.length + (t.length + 1) := by simp
                omega
              exact Nat.add_lt_add_left (ih g (Nat.lt_succ_self g) t htlen true htfire) _
        by_cases hb : b = true
        · subst hb
          cases htm : tryMatch r (c :: rest) with
          | some rem =>
            obtain ⟨M, heq, hocc⟩ := hoc _ _ (tryMatch_sound htm)
            have heq2 : c :: rest = (M ++ ['\n']) ++ rem := by rw [heq]; simp
            have hlen := congrArg List.length heq2
            simp only [List.length_cons, List.length_append] at hlen
            have hlt : rem.length < rest.length + 1 := by omega
            rw [subA_match htm hlt, nlEnd_eq_true heq2 ⟨M, rfl⟩]
            calc pyCount n (subA r rem true)
                ≤ pyCount n rem := pyCount_subA_le hr hne hnl rem.length rem (Nat.le_refl _) true
              _ < pyCount n rem + 1 := Nat.lt_succ_self _
              _ ≤ pyCount n ((M ++ ['\n']) ++ rem) :=
                  pyCount_append_one hne hnl (M ++ ['\n']).length (M ++ ['\n']) rem
                    (Nat.le_refl _) ⟨M, rfl⟩ hocc
              _ = pyCount n (c :: rest) := by rw [heq2]
          | none =>
            rw [subA_none htm]
            apply hcopy
            rcases hls with ⟨rfl, _⟩ | ⟨p', rfl⟩
            · exfalso
              have hsuf : suf = c :: rest := by simpa using hsplit.symm
              exact hfire (hsuf ▸ htm)
            · cases p' with
              | nil =>
                have hsp : c :: rest = '\n' :: suf := hsplit
                injection hsp with h1 h2
                subst h1
                exact ⟨[], suf, by simpa using h2, Or.inl ⟨rfl, by simp⟩, hfire⟩
              | cons d p'' =>
                have hsp : c :: rest = d :: ((p'' ++ ['\n']) ++ suf) := hsplit
                injection hsp with h1 h2
                exact ⟨p'' ++ ['\n'], suf, h2, Or.inr ⟨p'', rfl⟩, hfire⟩
        · have hb' : b = false := by simpa using hb
          subst hb'
          rw [subA_false]
          apply hcopy
          rcases hls with ⟨rfl, hft⟩ | ⟨p', rfl⟩
          · exact absurd hft (by simp)
          · cases p' with
            | nil =>
              have hsp : c :: rest = '\n' :: suf := hsplit
              injection hsp with h1 h2
              subst h1
              exact ⟨[], suf, by simpa using h2, Or.inl ⟨rfl, by simp⟩, hfire⟩
            | cons d p'' =>
              have hsp : c :: rest = d :: ((p'' ++ ['\n']) ++ suf) := hsplit
              injection hsp with h1 h2
              exact ⟨p'' ++ ['\n'], suf, h2, Or.inr ⟨p'', rfl⟩, hfire⟩

/-- Every `pattern1` match contains an occurrence of the guard-line text
`if (cached) return cached;` in its consumed text. -/
theorem pattern1_match_contains_guard :
    ∀ s rem : List Char, Matches pattern1 s rem →
      ∃ M, s = M ++ '\n' :: rem ∧ Occurs LIT_IFRET (M ++ ['\n']) := by
  intro s rem h
  obtain ⟨u, k, w1, u2, w2, heq, hu, hkne, hk, hw1, hu2, hw2⟩ := matches_pattern1_inv h
  refine ⟨u ++ (LIT_GCDECL ++ (k ++ (LIT_CLOSE ++ (w1 ++ '\n' ::
      (u2 ++ (LIT_IFRET ++ w2)))))), ?_, ?_⟩
  · rw [heq]
    simp [List.append_assoc]
  · refine ⟨u ++ (LIT_GCDECL ++ (k ++ (LIT_CLOSE ++ (w1 ++ '\n' :: u2)))),
      w2 ++ ['\n'], ?_⟩
    simp [List.append_assoc]

/-- If some line-start suffix of the input fires `pattern1`, and every
`pattern1` match contains an occurrence of the newline-free needle `n`,
then the whole engine strictly decreases the count of `n`. -/
theorem pyCount_remove_lt {n : List Char} (hne : n ≠ []) (hnl : '\n' ∉ n)
    (hoc : ∀ s rem : List Char, Matches pattern1 s rem →
      ∃ M, s = M ++ '\n' :: rem ∧ Occurs n (M ++ ['\n']))
    (s : List Char)
    (hfireAll : ∃ pre suf, s = pre ++ suf ∧ LineStartPre true pre
      ∧ tryMatch pattern1 suf ≠ none) :
    pyCount n (remove_cache_blocks s) < pyCount n s := by
  have h1 : pyCount n (subP pattern1 s) < pyCount n s :=
    pyCount_subA_lt hne hnl endsNL_pattern1 hoc s.length s (Nat.le_refl _) true hfireAll
  have h2 : pyCount n (subP pattern2 (subP pattern1 s)) ≤ pyCount n (subP pattern1 s) :=
    pyCount_subA_le endsNL_pattern2 hne hnl _ _ (Nat.le_refl _) true
  have h3 : pyCount n (subP pattern3 (subP pattern2 (subP pattern1 s)))
      ≤ pyCount n (subP pattern2 (subP pattern1 s)) :=
    pyCount_subA_le endsNL_pattern3 hne hnl _ _ (Nat.le_refl _) true
  have h4 : pyCount n (subP pattern4 (subP pattern3 (subP pattern2 (subP pattern1 s))))
      ≤ pyCount n (subP pattern3 (subP pattern2 (subP pattern1 s))) :=
    pyCount_subA_le endsNL_pattern4 hne hnl _ _ (Nat.le_refl _) true
  have h5 : pyCount n (subP pattern_unused_key (subP pattern4 (subP pattern3 (subP pattern2
      (subP pattern1 s)))))
      ≤ pyCount n (subP pattern4 (subP pattern3 (subP pattern2 (subP pattern1 s)))) :=
    pyCount_subA_le endsNL_pattern_unused_key hne hnl _ _ (Nat.le_refl _) true
  show pyCount n (subP pattern_unused_key (subP pattern4 (subP pattern3 (subP pattern2
    (subP pattern1 s))))) < pyCount n s
  omega

/-! ### Claim theorems: pattern-1 block removal -/

/-- Claim C4, counterexample: an input containing a lookup line
immediately followed by the single-line guard does not in general lose
both line texts. Here the input contains the two-line block, the engine
removes exactly that block, and the guard line's text still appears in the
output because an identical guard line occurs earlier in the file. -/
theorem guard_line_text_survives :
    Occurs ("const cached = getCached(key);\nif (cached) return cached;\n".toList)
      ("if (cached) return cached;\nconst cached = getCached(key);\nif (cached) return cached;\n".toList)
    ∧ remove_cache_blocks
        "if (cached) return cached;\nconst cached = getCached(key);\nif (cached) return cached;\n".toList
      = "if (cached) return cached;\n".toList
    ∧ Occurs ("if (cached) return cached;".toList)
        (remove_cache_blocks
          "if (cached) return cached;\nconst cached = getCached(key);\nif (cached) return cached;\n".toList) :=
  ⟨⟨"if (cached) return cached;\n".toList, [], by decide⟩, by decide,
   [], ['\n'], by decide⟩

/-- Claim C4, amended: whenever the input contains a `getCached` lookup
line immediately followed by the single-line truthy-return guard at a line
start, the Pattern Engine removes that block — both the number of
occurrences of `getCached` (the lookup line's marker) and the number of
occurrences of the guard-line text `if (cached) return cached;` strictly
decrease — but the removed lines' text may still appear in the output when
identical text occurs elsewhere in the input. -/
theorem block_fire_decreases_block_line_counts (A u1 k w1 u2 w2 B : List Char)
    (hA : LineStartA A) (hu1 : Ws u1) (hkne : k ≠ []) (hk : NoParen k)
    (hw1 : Ws w1) (hu2 : Ws u2) (hw2 : Ws w2) :
    pyCount GETCACHED (remove_cache_blocks (A ++ lookupGuardBlock u1 k w1 u2 w2 B))
      < pyCount GETCACHED (A ++ lookupGuardBlock u1 k w1 u2 w2 B)
    ∧ pyCount LIT_IFRET (remove_cache_blocks (A ++ lookupGuardBlock u1 k w1 u2 w2 B))
      < pyCount LIT_IFRET (A ++ lookupGuardBlock u1 k w1 u2 w2 B) := by
  have hfire : tryMatch pattern1 (lookupGuardBlock u1 k w1 u2 w2 B) ≠ none :=
    tryMatch_complete (matches_pattern1_construct hu1 hkne hk hw1 hu2 hw2)
  have hls : LineStartPre true A := by
    rcases hA with rfl | ⟨A', hA'⟩
    · exact Or.inl ⟨rfl, rfl⟩
    · exact Or.inr ⟨A', hA'⟩
  have hex : ∃ pre suf, A ++ lookupGuardBlock u1 k w1 u2 w2 B = pre ++ suf
      ∧ LineStartPre true pre ∧ tryMatch pattern1 suf ≠ none :=
    ⟨A, _, rfl, hls, hfire⟩
  exact ⟨pyCount_remove_lt (by decide) (by decide) pattern1_match_contains_getCached _ hex,
    pyCount_remove_lt (by decide) (by decide) pattern1_match_contains_guard _ hex⟩

/-- Claim C4, witness: a concrete instantiation of the amended claim. -/
theorem block_fire_decreases_block_line_counts_witness :
    LineStartA [] ∧ Ws ([] : List Char) ∧ "key".toList ≠ [] ∧ NoParen "key".toList
    ∧ (pyCount GETCACHED
        (remove_cache_blocks ([] ++ lookupGuardBlock [] "key".toList [] [] [] []))
      < pyCount GETCACHED ([] ++ lookupGuardBlock [] "key".toList [] [] [] []))
    ∧ (pyCount LIT_IFRET
        (remove_cache_blocks ([] ++ lookupGuardBlock [] "key".toList [] [] [] []))
      < pyCount LIT_IFRET ([] ++ lookupGuardBlock [] "key".toList [] [] [] [])) := by
  have h := block_fire_decreases_block_line_counts [] [] "key".toList [] [] [] []
    (Or.inl rfl) (fun c hc => absurd hc (List.not_mem_nil c)) (by decide)
    (by show ∀ c ∈ "key".toList, nonParen c = true; decide)
    (fun c hc => absurd hc (List.not_mem_nil c))
    (fun c hc => absurd hc (List.not_mem_nil c))
    (fun c hc => absurd hc (List.not_mem_nil c))
  exact ⟨Or.inl rfl, fun c hc => absurd hc (List.not_mem_nil c), by decide,
    by show ∀ c ∈ "key".toList, nonParen c = true; decide, h.1, h.2⟩

/-! ### The batch runner -/

theorem pyCount_remove_le {n : List Char} (hne : n ≠ []) (hnl : '\n' ∉ n) (c : List Char) :
    pyCount n (remove_cache_blocks c) ≤ pyCount n c := by
  have h1 : pyCount n (subP pattern1 c) ≤ pyCount n c :=
    pyCount_subA_le endsNL_pattern1 hne hnl c.length c (Nat.le_refl _) true
  have h2 : pyCount n (subP pattern2 (subP pattern1 c)) ≤ pyCount n (subP pattern1 c) :=
    pyCount_subA_le endsNL_pattern2 hne hnl _ _ (Nat.le_refl _) true
  have h3 : pyCount n (subP pattern3 (subP pattern2 (subP pattern1 c)))
      ≤ pyCount n (subP pattern2 (subP pattern1 c)) :=
    pyCount_subA_le endsNL_pattern3 hne hnl _ _ (Nat.le_refl _) true
  have h4 : pyCount n (subP pattern4 (subP pattern3 (subP pattern2 (subP pattern1 c))))
      ≤ pyCount n (subP pattern3 (subP pattern2 (subP pattern1 c))) :=
    pyCount_subA_le endsNL_pattern4 hne hnl _ _ (Nat.le_refl _) true
  have h5 : pyCount n (subP pattern_unused_key (subP pattern4 (subP pattern3 (subP pattern2
      (subP pattern1 c)))))
      ≤ pyCount n (subP pattern4 (subP pattern3 (subP pattern2 (subP pattern1 c)))) :=
    pyCount_subA_le endsNL_pattern_unused_key hne hnl _ _ (Nat.le_refl _) true
  show pyCount n (subP pattern_unused_key (subP pattern4 (subP pattern3 (subP pattern2
    (subP pattern1 c))))) ≤ pyCount n c
  omega

theorem countMarkers_remove_le (c : List Char) :
    countMarkers (remove_cache_blocks c) ≤ countMarkers c :=
  Nat.add_le_add (pyCount_remove_le (by decide) (by decide) c)
    (pyCount_remove_le (by decide) (by decide) c)

theorem processOne_missing {fs : String → Option (List Char)} {nm : String}
    (h : fs nm = none) : processOne fs nm = (fs, 0, Outcome.missing) := by
  simp [processOne, h]

theorem processOne_unchanged {fs : String → Option (List Char)} {nm : String}
    {c : List Char} (h1 : fs nm = some c) (h2 : remove_cache_blocks c = c) :
    processOne fs nm = (fs, 0, Outcome.unchanged) := by
  simp only [processOne, h1]
  rw [if_pos h2.symm]

theorem processOne_modified {fs : String → Option (List Char)} {nm : String}
    {c : List Char} (h1 : fs nm = some c) (h2 : ¬ c = remove_cache_blocks c) :
    processOne fs nm = (writeFS fs nm (remove_cache_blocks c),
      (countMarkers c : Int) - countMarkers (remove_cache_blocks c),
      Outcome.modified ((countMarkers c : Int) - countMarkers (remove_cache_blocks c))) := by
  simp [processOne, h1, if_neg h2]

theorem processOne_delta_nonneg (fs : String → Option (List Char)) (nm : String) :
    0 ≤ (processOne fs nm).2.1 := by
  cases hfs : fs nm with
  | none => rw [processOne_missing hfs]
  | some c =>
    by_cases hc : c = remove_cache_blocks c
    · rw [processOne_unchanged hfs hc.symm]
    · rw [processOne_modified hfs hc]
      show 0 ≤ (countMarkers c : Int) - countMarkers (remove_cache_blocks c)
      have hle := countMarkers_remove_le c
      omega

theorem processOne_preserves_none {fs : String → Option (List Char)} {nm k : String}
    (h : fs nm = none) : (processOne fs k).1 nm = none := by
  cases hfs : fs k with
  | none => rw [processOne_missing hfs]; exact h
  | some c =>
    by_cases hc : c = remove_cache_blocks c
    · rw [processOne_unchanged hfs hc.symm]; exact h
    · rw [processOne_modified hfs hc]
      show writeFS fs k (remove_cache_blocks c) nm = none
      unfold writeFS
      by_cases hk : nm = k
      · subst hk
        rw [h] at hfs
        exact absurd hfs (by simp)
      · rw [if_neg hk]
        exact h

theorem foldl_preserves_none {nm : String} :
    ∀ (l : List String) (st : RunState), st.fs nm = none →
      (l.foldl runStep st).fs nm = none := by
  intro l
  induction l with
  | nil => exact fun st h => h
  | cons k l ih =>
    intro st h
    exact ih (runStep st k) (processOne_preserves_none h)

/-- The log is write-only: runs from states agreeing on file system and
total produce the same file system, total, and appended log tail. -/
theorem runFold_congr :
    ∀ (l : List String) (st st' : RunState), st.fs = st'.fs → st.total = st'.total →
      ∃ tail, (l.foldl runStep st).fs = (l.foldl runStep st').fs
        ∧ (l.foldl runStep st).total = (l.foldl runStep st').total
        ∧ (l.foldl runStep st).log = st.log ++ tail
        ∧ (l.foldl runStep st').log = st'.log ++ tail := by
  intro l
  induction l with
  | nil => exact fun st st' hfs htot => ⟨[], hfs, htot, by simp, by simp⟩
  | cons k l ih =>
    intro st st' hfs htot
    have hstep_fs : (runStep st k).fs = (runStep st' k).fs := by
      show (processOne st.fs k).1 = (processOne st'.fs k).1
      rw [hfs]
    have hstep_tot : (runStep st k).total = (runStep st' k).total := by
      show st.total + (processOne st.fs k).2.1 = st'.total + (processOne st'.fs k).2.1
      rw [hfs, htot]
    obtain ⟨tail, h1, h2, h3, h4⟩ := ih (runStep st k) (runStep st' k) hstep_fs hstep_tot
    refine ⟨(k, (processOne st.fs k).2.2) :: tail, h1, h2, ?_, ?_⟩
    · show (List.foldl runStep (runStep st k) l).log
        = st.log ++ (k, (processOne st.fs k).2.2) :: tail
      rw [h3]
      show (st.log ++ [(k, (processOne st.fs k).2.2)]) ++ tail = _
      simp
    · show (List.foldl runStep (runStep st' k) l).log
        = st'.log ++ (k, (processOne st.fs k).2.2) :: tail
      rw [hfs, h4]
      show (st'.log ++ [(k, (processOne st'.fs k).2.2)]) ++ tail = _
      simp

theorem sumModified_append_one (log : List (String × Outcome)) (nm : String) (oc : Outcome) :
    sumModified (log ++ [(nm, oc)])
      = sumModified log + (match oc with | Outcome.modified r => r | _ => 0) := by
  show (log ++ [(nm, oc)]).foldl _ 0 = _
  rw [List.foldl_append]
  cases oc with
  | missing => simp [sumModified]
  | unchanged => simp [sumModified]
  | modified r => simp [sumModified]

/-- The running total always equals the sum of the logged modified
counts. -/
theorem total_eq_sumModified :
    ∀ (l : List String) (st : RunState), st.total = sumModified st.log →
      (l.foldl runStep st).total = sumModified (l.foldl runStep st).log := by
  intro l
  induction l with
  | nil => exact fun st h => h
  | cons k l ih =>
    intro st h
    refine ih (runStep st k) ?_
    show st.total + (processOne st.fs k).2.1
      = sumModified (st.log ++ [(k, (processOne st.fs k).2.2)])
    rw [sumModified_append_one]
    cases hfs : st.fs k with
    | none => rw [processOne_missing hfs]; simpa using h
    | some c =>
      by_cases hc : c = remove_cache_blocks c
      · rw [processOne_unchanged hfs hc.symm]; simpa using h
      · rw [processOne_modified hfs hc]
        show st.total + ((countMarkers c : Int) - countMarkers (remove_cache_blocks c))
          = sumModified st.log + ((countMarkers c : Int) - countMarkers (remove_cache_blocks c))
        rw [h]

/-! ### Claim theorems: the batch runner -/

/-- Claim C6: for every modified file the reported removed-block count is
the difference of the marker-name counts (`getCached` plus `setCache`)
between original and transformed text, and the final reported total is the
sum of these per-file counts over the modified files. -/
theorem modified_count_formula_and_total (fs : String → Option (List Char)) (nm : String)
    (c : List Char) (h1 : fs nm = some c) (h2 : ¬ c = remove_cache_blocks c)
    (fs0 : String → Option (List Char)) :
    (processOne fs nm).2.2 = Outcome.modified ((countMarkers c : Int)
        - countMarkers (remove_cache_blocks c))
    ∧ (main_run fs0).total = sumModified (main_run fs0).log := by
  constructor
  · rw [processOne_modified h1 h2]
  · exact total_eq_sumModified PROVIDERS ⟨fs0, 0, []⟩ rfl

/-- Claim C6, witness: a file system with one changed provider file. -/
theorem modified_count_formula_and_total_witness :
    ((fun x : String => if x = "lego.js" then some "setCache(a, b);\n".toList else none)
        "lego.js" = some "setCache(a, b);\n".toList)
    ∧ ¬ "setCache(a, b);\n".toList = remove_cache_blocks "setCache(a, b);\n".toList
    ∧ (processOne (fun x : String =>
          if x = "lego.js" then some "setCache(a, b);\n".toList else none) "lego.js").2.2
        = Outcome.modified ((countMarkers "setCache(a, b);\n".toList : Int)
            - countMarkers (remove_cache_blocks "setCache(a, b);\n".toList))
    ∧ (main_run (fun x : String =>
          if x = "lego.js" then some "setCache(a, b);\n".toList else none)).total
        = sumModified (main_run (fun x : String =>
          if x = "lego.js" then some "setCache(a, b);\n".toList else none)).log := by
  have h := modified_count_formula_and_total
    (fun x : String => if x = "lego.js" then some "setCache(a, b);\n".toList else none)
    "lego.js" "setCache(a, b);\n".toList (by decide) (by decide)
    (fun x : String => if x = "lego.js" then some "setCache(a, b);\n".toList else none)
  exact ⟨by decide, by decide, h.1, h.2⟩

/-- Claim C7: an entry whose path does not exist is skipped — the file
system and the running total are exactly those of the run without that
entry, the skip is recorded, and every remaining entry is still
processed. -/
theorem missing_file_skipped (fs0 : String → Option (List Char)) (nm : String)
    (l1 l2 : List String) (h : fs0 nm = none) :
    (runList fs0 (l1 ++ nm :: l2)).fs = (runList fs0 (l1 ++ l2)).fs
    ∧ (runList fs0 (l1 ++ nm :: l2)).total = (runList fs0 (l1 ++ l2)).total
    ∧ (nm, Outcome.missing) ∈ (runList fs0 (l1 ++ nm :: l2)).log := by
  have hl : runList fs0 (l1 ++ nm :: l2) = l2.foldl runStep (runStep (runList fs0 l1) nm) := by
    show (l1 ++ nm :: l2).foldl runStep ⟨fs0, 0, []⟩ = _
    rw [List.foldl_append]
    rfl
  have hr : runList fs0 (l1 ++ l2) = l2.foldl runStep (runList fs0 l1) := by
    show (l1 ++ l2).foldl runStep ⟨fs0, 0, []⟩ = _
    rw [List.foldl_append]
    rfl
  have hnone : (runList fs0 l1).fs nm = none := foldl_preserves_none l1 ⟨fs0, 0, []⟩ h
  have hfs : (runStep (runList fs0 l1) nm).fs = (runList fs0 l1).fs := by
    show (processOne (runList fs0 l1).fs nm).1 = _
    rw [processOne_missing hnone]
  have htot : (runStep (runList fs0 l1) nm).total = (runList fs0 l1).total := by
    show (runList fs0 l1).total + (processOne (runList fs0 l1).fs nm).2.1 = _
    rw [processOne_missing hnone]
    show (runList fs0 l1).total + 0 = _
    rw [Int.add_zero]
  have hlog : (runStep (runList fs0 l1) nm).log
      = (runList fs0 l1).log ++ [(nm, Outcome.missing)] := by
    show (runList fs0 l1).log ++ [(nm, (processOne (runList fs0 l1).fs nm).2.2)] = _
    rw [processOne_missing hnone]
  obtain ⟨tail, h1, h2, h3, h4⟩ :=
    runFold_congr l2 (runStep (runList fs0 l1) nm) (runList fs0 l1) hfs htot
  refine ⟨?_, ?_, ?_⟩
  · rw [hl, hr, h1]
  · rw [hl, hr, h2]
  · rw [hl, h3, hlog]
    exact List.mem_append_left _ (List.mem_append_right _ (by simp))

/-- Claim C7, witness: a missing file between two present ones is skipped
while the others are processed. -/
theorem missing_file_skipped_witness :
    ((fun x : String => if x = "igdb.js" then none else some "x();\n".toList) "igdb.js"
        = none)
    ∧ ((runList (fun x : String => if x = "igdb.js" then none else some "x();\n".toList)
          (["lego.js"] ++ "igdb.js" :: ["jvc.js"])).fs
        = (runList (fun x : String => if x = "igdb.js" then none else some "x();\n".toList)
          (["lego.js"] ++ ["jvc.js"])).fs)
    ∧ ((runList (fun x : String => if x = "igdb.js" then none else some "x();\n".toList)
          (["lego.js"] ++ "igdb.js" :: ["jvc.js"])).total
        = (runList (fun x : String => if x = "igdb.js" then none else some "x();\n".toList)
          (["lego.js"] ++ ["jvc.js"])).total)
    ∧ ("igdb.js", Outcome.missing)
        ∈ (runList (fun x : String => if x = "igdb.js" then none else some "x();\n".toList)
          (["lego.js"] ++ "igdb.js" :: ["jvc.js"])).log := by
  have h := missing_file_skipped
    (fun x : String => if x = "igdb.js" then none else some "x();\n".toList)
    "igdb.js" ["lego.js"] ["jvc.js"] (by decide)
  exact ⟨by decide, h.1, h.2.1, h.2.2⟩

/-- Claim C8: a file whose transformed text equals its original is not
written back — the file system is unchanged — and the running total is
unchanged; only a "no change" outcome is recorded. -/
theorem unchanged_file_no_write (st : RunState) (nm : String) (c : List Char)
    (h1 : st.fs nm = some c) (h2 : remove_cache_blocks c = c) :
    (runStep st nm).fs = st.fs ∧ (runStep st nm).total = st.total
    ∧ (runStep st nm).log = st.log ++ [(nm, Outcome.unchanged)] := by
  refine ⟨?_, ?_, ?_⟩
  · show (processOne st.fs nm).1 = _
    rw [processOne_unchanged h1 h2]
  · show st.total + (processOne st.fs nm).2.1 = _
    rw [processOne_unchanged h1 h2]
    show st.total + 0 = _
    rw [Int.add_zero]
  · show st.log ++ [(nm, (processOne st.fs nm).2.2)] = _
    rw [processOne_unchanged h1 h2]

/-- Claim C8, witness: a provider file the engine leaves unchanged. -/
theorem unchanged_file_no_write_witness :
    ((⟨fun x : String => if x = "lego.js" then some "x();\n".toList else none, 0, []⟩
        : RunState).fs "lego.js" = some "x();\n".toList)
    ∧ remove_cache_blocks "x();\n".toList = "x();\n".toList
    ∧ (runStep ⟨fun x : String => if x = "lego.js" then some "x();\n".toList else none, 0, []⟩
        "lego.js").fs
      = (⟨fun x : String => if x = "lego.js" then some "x();\n".toList else none, 0, []⟩
        : RunState).fs
    ∧ (runStep ⟨fun x : String => if x = "lego.js" then some "x();\n".toList else none, 0, []⟩
        "lego.js").total
      = (⟨fun x : String => if x = "lego.js" then some "x();\n".toList else none, 0, []⟩
        : RunState).total := by
  have h := unchanged_file_no_write
    ⟨fun x : String => if x = "lego.js" then some "x();\n".toList else none, 0, []⟩
    "lego.js" "x();\n".toList (by decide) (by decide)
  exact ⟨by decide, by decide, h.1, h.2.1⟩

/-- Claim C9: the per-file removed-block count added to the total is never
negative — deleting whole lines cannot create new `getCached`/`setCache`
occurrences — and so the running total never decreases as the run
progresses to further files. -/
theorem run_total_monotone (fs : String → Option (List Char)) (nm : String)
    (fs0 : String → Option (List Char)) (l : List String) (k : String) :
    0 ≤ (processOne fs nm).2.1
    ∧ (runList fs0 l).total ≤ (runList fs0 (l ++ [k])).total := by
  refine ⟨processOne_delta_nonneg fs nm, ?_⟩
  have h1 : runList fs0 (l ++ [k]) = runStep (runList fs0 l) k := by
    show (l ++ [k]).foldl runStep ⟨fs0, 0, []⟩ = _
    rw [List.foldl_append]
    rfl
  rw [h1]
  show (runList fs0 l).total
    ≤ (runList fs0 l).total + (processOne (runList fs0 l).fs k).2.1
  have h2 := processOne_delta_nonneg (runList fs0 l).fs k
  omega

end RemoveCacheBlocks
